import Mathlib

/-!
# tdex-daemon: blockchain listener and wallet unlocker

A shallow embedding of

* `internal/core/application/blockchain_listener.go` (`handleBlockChainEvents`), and
* `cmd/unlockerd/main.go` (`validate`, `main`, `getWalletStatus`).

The repositories, the confirmation oracle and the unit of work are ports: their
replies are given by a `World` record, one reply per call site and loop
position, and the handler produces the ordered log of the calls it makes.
-/

namespace Tdex

/-! ## Data model -/

/-- Go `error` values are represented by their message. -/
abbrev Err := String

/-- An `explorer.Utxo` as the listener reads it: `Hash()`, `Asset()`, `Index()`, `Value()`. -/
structure Utxo where
  hash : String
  asset : String
  index : Nat
  value : Nat
deriving DecidableEq, Repr

/-- The record built by `domain.NewUnspent`, field by field in argument order
(lines 72-83 and 175-186); `optional1` and `optional2` are the two arguments the
listener passes as `nil`. -/
structure Unspent where
  txid : String
  assetHash : String
  address : String
  vout : Nat
  value : Nat
  spent : Bool
  locked : Bool
  optional1 : Option String
  optional2 : Option String
  confirmed : Bool
deriving DecidableEq, Repr

/-- The constructor `domain.NewUnspent`, arguments in source order. -/
def NewUnspent (txid assetHash address : String) (vout value : Nat) (spent locked : Bool)
    (optional1 optional2 : Option String) (confirmed : Bool) : Unspent :=
  ⟨txid, assetHash, address, vout, value, spent, locked, optional1, optional2, confirmed⟩

/-- The struct `domain.OutpointWithAsset` (lines 201-205). `Vout` is `int(u.Index())`,
which keeps the value of the unsigned index. -/
structure OutpointWithAsset where
  Asset : String
  Txid : String
  Vout : Nat
deriving DecidableEq, Repr

/-- The struct `crawler.AddressEvent`: the fields the handler reads. -/
structure AddressEvent where
  AccountIndex : Nat
  Address : String
  Utxos : List Utxo
deriving DecidableEq, Repr

/-- The events of the crawler channel, by `event.Type()`. -/
inductive Event where
  | FeeAccountDeposit (e : AddressEvent)
  | MarketAccountDeposit (e : AddressEvent)
  | TransactionConfirmed
deriving DecidableEq, Repr

/-- The methods of `domain.Market` the listener calls. The market type is a
parameter: the listener only goes through these four methods. `FundMarket`
returns the funded market, or the error. -/
structure MarketOps (M : Type) where
  IsFunded : M → Bool
  FundMarket : M → List OutpointWithAsset → Except Err M
  QuoteAssetHash : M → String
  AccountIndex : M → Nat

/-- The configuration values read through `config`. -/
structure Config where
  /-- The value of `config.GetString(config.BaseAssetKey)`. -/
  BaseAsset : String
  /-- The value of `config.GetInt(config.FeeAccountBalanceThresholdKey)`, a Go `int`. -/
  FeeAccountBalanceThreshold : Int
  /-- The constant `domain.FeeAccount`. -/
  FeeAccount : Nat

/-- The replies of the ports while one event is handled. A call made in a loop
takes the loop position as first argument, so that two calls with the same
arguments may be answered differently. -/
structure World (M : Type) where
  /-- Reply of `explorerSvc.IsTransactionConfirmed(hash)` for the utxo at a position. -/
  IsTransactionConfirmed : Nat → String → Except Err Bool
  /-- Reply of `unspentRepository.AddUnspents(ctx, unspents)`: the error, if any. -/
  AddUnspents : List Unspent → Option Err
  /-- Reply of `marketRepository.GetTradableMarkets(ctx)`. -/
  GetTradableMarkets : Except Err (List M)
  /-- Reply of `vaultRepository.GetAllDerivedAddressesAndBlindingKeysForAccount(ctx, account)`:
  the addresses (the blinding keys are dropped by the caller). -/
  GetAllDerivedAddressesAndBlindingKeysForAccount : Nat → Except Err (List String)
  /-- Reply of `unspentRepository.GetBalance(ctx, address, asset)` at a position. -/
  GetBalance : Nat → String → String → Nat
  /-- Reply of `marketRepository.CloseMarket(ctx, quoteAsset)` at a position. -/
  CloseMarket : Nat → String → Option Err
  /-- Reply of `marketRepository.OpenMarket(ctx, quoteAsset)` at a position. -/
  OpenMarket : Nat → String → Option Err
  /-- Reply of `marketRepository.GetOrCreateMarket(ctx, accountIndex)`. -/
  GetOrCreateMarket : Nat → Except Err M
  /-- Reply of `marketRepository.UpdateMarket(ctx, accountIndex, updateFn)`: the markets
  the repository applied the update function to, in order, and the error it returned. -/
  UpdateMarket : Nat → (M → Except Err M) → List M × Option Err
  /-- Reply of `tx.Commit()`. -/
  Commit : Option Err

/-- One entry of the call log of the handler. A port call is logged when it
returns, with its arguments and its reply. -/
inductive Action (M : Type) where
  | NewTransaction
  | IsTransactionConfirmed (hash : String) (reply : Except Err Bool)
  | Discard
  | AddUnspents (unspents : List Unspent) (err : Option Err)
  | GetTradableMarkets (reply : Except Err (List M))
  | GetAllDerivedAddresses (account : Nat) (reply : Except Err (List String))
  | GetBalance (address asset : String) (balance : Nat)
  | CloseMarket (quoteAsset : String) (err : Option Err)
  | OpenMarket (quoteAsset : String) (err : Option Err)
  | GetOrCreateMarket (accountIndex : Nat) (reply : Except Err M)
  | FundMarket (m : M) (fundingTxs : List OutpointWithAsset) (reply : Except Err M)
  | UpdateMarket (accountIndex : Nat) (err : Option Err)
  | Commit (err : Option Err)

/-- How the body of the `switch` leaves: `continue events` skips `commitTx`,
falling out of the `switch` reaches it. -/
inductive Flow where
  | continueEvents
  | fallThrough
deriving DecidableEq, Repr

/-! ## The handler -/

/-- The conversion `uint64(n)` of a Go `int`. -/
def toUint64 (n : Int) : Nat := (n % 2 ^ 64).toNat

/-- The loops `utxoLoop` and `utxoLoop1` (lines 62-85, 165-188): `i` is the position
of the next utxo, `unspents` the slice built so far. Returns the final slice and
the calls made. -/
def utxoLoop {M : Type} (w : World M) (address : String) :
    Nat → List Utxo → List Unspent → List Unspent × List (Action M)
  | _, [], unspents => (unspents, [])
  | i, utxo :: rest, unspents =>
    match w.IsTransactionConfirmed i utxo.hash with
    | .error err =>
      let r := utxoLoop w address (i + 1) rest unspents
      (r.1, .IsTransactionConfirmed utxo.hash (.error err) :: .Discard :: r.2)
    | .ok isTrxConfirmed =>
      let u := NewUnspent utxo.hash utxo.asset address utxo.index utxo.value
        false false none none isTrxConfirmed
      let r := utxoLoop w address (i + 1) rest (unspents ++ [u])
      (r.1, .IsTransactionConfirmed utxo.hash (.ok isTrxConfirmed) :: r.2)

/-- The balance loop (lines 116-123): `feeAccountBalance` is a `uint64`, so the
addition wraps. -/
def balanceLoop {M : Type} (w : World M) (asset : String) :
    Nat → List String → Nat → Nat × List (Action M)
  | _, [], feeAccountBalance => (feeAccountBalance, [])
  | i, a :: rest, feeAccountBalance =>
    let b := w.GetBalance i a asset
    let r := balanceLoop w asset (i + 1) rest ((feeAccountBalance + b) % 2 ^ 64)
    (r.1, .GetBalance a asset b :: r.2)

/-- The close loop (lines 130-140). The flag tells whether a call failed. -/
def closeLoop {M : Type} (ops : MarketOps M) (w : World M) :
    Nat → List M → List (Action M) × Bool
  | _, [] => ([], false)
  | i, m :: rest =>
    match w.CloseMarket i (ops.QuoteAssetHash m) with
    | some err => ([.CloseMarket (ops.QuoteAssetHash m) (some err), .Discard], true)
    | none =>
      let r := closeLoop ops w (i + 1) rest
      (.CloseMarket (ops.QuoteAssetHash m) none :: r.1, r.2)

/-- The open loop (lines 144-158). The flag tells whether a call failed. -/
def openLoop {M : Type} (ops : MarketOps M) (w : World M) :
    Nat → List M → List (Action M) × Bool
  | _, [] => ([], false)
  | i, m :: rest =>
    match w.OpenMarket i (ops.QuoteAssetHash m) with
    | some err => ([.OpenMarket (ops.QuoteAssetHash m) (some err), .Discard], true)
    | none =>
      let r := openLoop ops w (i + 1) rest
      (.OpenMarket (ops.QuoteAssetHash m) none :: r.1, r.2)

/-- The `case crawler.FeeAccountDeposit` arm (lines 57-159). -/
def feeAccountDeposit {M : Type} (cfg : Config) (ops : MarketOps M) (w : World M)
    (e : AddressEvent) : List (Action M) × Flow :=
  if e.Utxos.length > 0 then
    let r := utxoLoop w e.Address 0 e.Utxos []
    let unspents := r.1
    match w.AddUnspents unspents with
    | some err => (r.2 ++ [.AddUnspents unspents (some err), .Discard], .continueEvents)
    | none =>
      match w.GetTradableMarkets with
      | .error err =>
        (r.2 ++ [.AddUnspents unspents none, .GetTradableMarkets (.error err), .Discard],
          .continueEvents)
      | .ok markets =>
        match w.GetAllDerivedAddressesAndBlindingKeysForAccount cfg.FeeAccount with
        | .error err =>
          (r.2 ++ [.AddUnspents unspents none, .GetTradableMarkets (.ok markets),
            .GetAllDerivedAddresses cfg.FeeAccount (.error err), .Discard], .continueEvents)
        | .ok addresses =>
          let b := balanceLoop w cfg.BaseAsset 0 addresses 0
          let pre := r.2 ++ [.AddUnspents unspents none, .GetTradableMarkets (.ok markets),
            .GetAllDerivedAddresses cfg.FeeAccount (.ok addresses)] ++ b.2
          if b.1 < toUint64 cfg.FeeAccountBalanceThreshold then
            (pre ++ (closeLoop ops w 0 markets).1, .continueEvents)
          else
            let o := openLoop ops w 0 markets
            (pre ++ o.1, if o.2 then .continueEvents else .fallThrough)
  else ([], .fallThrough)

/-- The loop building `fundingTxs` (lines 199-207). -/
def fundingTxsOf : List Utxo → List OutpointWithAsset
  | [] => []
  | u :: rest => { Asset := u.asset, Txid := u.hash, Vout := u.index } :: fundingTxsOf rest

/-- The update function passed to `UpdateMarket` (lines 222-236): its result and
the calls it makes. -/
def updateFn {M : Type} (ops : MarketOps M) (fundingTxs : List OutpointWithAsset) (m : M) :
    Except Err M × List (Action M) :=
  if ops.IsFunded m then (.ok m, [])
  else
    match ops.FundMarket m fundingTxs with
    | .error err => (.error err, [.FundMarket m fundingTxs (.error err), .Discard])
    | .ok m1 => (.ok m1, [.FundMarket m fundingTxs (.ok m1)])

/-- The calls made by the update function over the markets the repository applies it to. -/
def updateCalls {M : Type} (ops : MarketOps M) (fundingTxs : List OutpointWithAsset) :
    List M → List (Action M)
  | [] => []
  | m :: rest => (updateFn ops fundingTxs m).2 ++ updateCalls ops fundingTxs rest

/-- The `case crawler.MarketAccountDeposit` arm (lines 161-242). -/
def marketAccountDeposit {M : Type} (ops : MarketOps M) (w : World M)
    (e : AddressEvent) : List (Action M) × Flow :=
  if e.Utxos.length > 0 then
    let r := utxoLoop w e.Address 0 e.Utxos []
    let unspents := r.1
    match w.AddUnspents unspents with
    | some err => (r.2 ++ [.AddUnspents unspents (some err), .Discard], .continueEvents)
    | none =>
      let fundingTxs := fundingTxsOf e.Utxos
      match w.GetOrCreateMarket e.AccountIndex with
      | .error err =>
        (r.2 ++ [.AddUnspents unspents none,
          .GetOrCreateMarket e.AccountIndex (.error err), .Discard], .continueEvents)
      | .ok m =>
        let u := w.UpdateMarket (ops.AccountIndex m) (fun m1 => (updateFn ops fundingTxs m1).1)
        let pre := r.2 ++ [.AddUnspents unspents none,
          .GetOrCreateMarket e.AccountIndex (.ok m)] ++ updateCalls ops fundingTxs u.1
        match u.2 with
        | some err =>
          (pre ++ [.UpdateMarket (ops.AccountIndex m) (some err), .Discard], .continueEvents)
        | none => (pre ++ [.UpdateMarket (ops.AccountIndex m) none], .fallThrough)
  else ([], .fallThrough)

/-- The body of the `switch` (lines 56-246). -/
def dispatch {M : Type} (cfg : Config) (ops : MarketOps M) (w : World M) :
    Event → List (Action M) × Flow
  | .FeeAccountDeposit e => feeAccountDeposit cfg ops w e
  | .MarketAccountDeposit e => marketAccountDeposit ops w e
  | .TransactionConfirmed => ([], .fallThrough)

/-- One iteration of the `events` loop (lines 53-248): `startTx`, the `switch`,
and `commitTx` unless the body left by `continue events`. -/
def handleEvent {M : Type} (cfg : Config) (ops : MarketOps M) (w : World M)
    (ev : Event) : List (Action M) :=
  let r := dispatch cfg ops w ev
  .NewTransaction :: r.1 ++ (if r.2 = .fallThrough then [.Commit w.Commit] else [])

/-- The function `handleBlockChainEvents` over the events the channel delivers:
`ws k` gives the replies of the ports while the event number `k` is handled. -/
def handleBlockChainEvents {M : Type} (cfg : Config) (ops : MarketOps M)
    (ws : Nat → World M) : Nat → List Event → List (Action M)
  | _, [] => []
  | k, ev :: rest =>
    handleEvent cfg ops (ws k) ev ++ handleBlockChainEvents cfg ops ws (k + 1) rest

/-! ## Reading the call log -/

/-- A repository call that returned an error. The oracle, the domain method
`FundMarket` and the unit-of-work calls are not repository calls. -/
def Action.isFailedRepoCall {M : Type} : Action M → Bool
  | .AddUnspents _ (some _) => true
  | .GetTradableMarkets (.error _) => true
  | .GetAllDerivedAddresses _ (.error _) => true
  | .CloseMarket _ (some _) => true
  | .OpenMarket _ (some _) => true
  | .GetOrCreateMarket _ (.error _) => true
  | .UpdateMarket _ (some _) => true
  | _ => false

/-- The batch of an `AddUnspents` call. -/
def Action.addUnspentsArg {M : Type} : Action M → Option (List Unspent)
  | .AddUnspents unspents _ => some unspents
  | _ => none

/-- The quote asset of an `OpenMarket` call. -/
def Action.openMarketArg {M : Type} : Action M → Option String
  | .OpenMarket q _ => some q
  | _ => none

/-- The quote asset of a `CloseMarket` call. -/
def Action.closeMarketArg {M : Type} : Action M → Option String
  | .CloseMarket q _ => some q
  | _ => none

/-- The reply of a `GetTradableMarkets` call. -/
def Action.getTradableMarketsReply {M : Type} : Action M → Option (Except Err (List M))
  | .GetTradableMarkets r => some r
  | _ => none

/-- The account of a derived-address lookup. -/
def Action.getAllDerivedAddressesArg {M : Type} : Action M → Option Nat
  | .GetAllDerivedAddresses account _ => some account
  | _ => none

/-- The address and asset of a `GetBalance` call. -/
def Action.getBalanceArg {M : Type} : Action M → Option (String × String)
  | .GetBalance a asset _ => some (a, asset)
  | _ => none

/-- The funding list of a `FundMarket` call. -/
def Action.fundMarketArg {M : Type} : Action M → Option (List OutpointWithAsset)
  | .FundMarket _ fundingTxs _ => some fundingTxs
  | _ => none

/-- Marks a `Discard` call. -/
def Action.discardMark {M : Type} : Action M → Option Unit
  | .Discard => some ()
  | _ => none

/-- The reply of a `Commit` call. -/
def Action.commitReply {M : Type} : Action M → Option (Option Err)
  | .Commit err => some err
  | _ => none

/-- The batches passed to `AddUnspents`, in call order. -/
def addUnspentsCalls {M : Type} (l : List (Action M)) : List (List Unspent) :=
  l.filterMap Action.addUnspentsArg

/-- The quote assets `OpenMarket` was called on, in call order. -/
def openMarketCalls {M : Type} (l : List (Action M)) : List String :=
  l.filterMap Action.openMarketArg

/-- The quote assets `CloseMarket` was called on, in call order. -/
def closeMarketCalls {M : Type} (l : List (Action M)) : List String :=
  l.filterMap Action.closeMarketArg

/-- The replies of the `GetTradableMarkets` calls, in call order. -/
def getTradableMarketsCalls {M : Type} (l : List (Action M)) : List (Except Err (List M)) :=
  l.filterMap Action.getTradableMarketsReply

/-- The accounts whose derived addresses were looked up, in call order. -/
def getAllDerivedAddressesCalls {M : Type} (l : List (Action M)) : List Nat :=
  l.filterMap Action.getAllDerivedAddressesArg

/-- The `(address, asset)` pairs `GetBalance` was called on, in call order. -/
def getBalanceCalls {M : Type} (l : List (Action M)) : List (String × String) :=
  l.filterMap Action.getBalanceArg

/-- The funding lists `FundMarket` was called with, in call order. -/
def fundMarketCalls {M : Type} (l : List (Action M)) : List (List OutpointWithAsset) :=
  l.filterMap Action.fundMarketArg

/-- The number of `Discard` calls. -/
def discardCalls {M : Type} (l : List (Action M)) : Nat :=
  (l.filterMap Action.discardMark).length

/-- The number of `Commit` calls. -/
def commitCalls {M : Type} (l : List (Action M)) : Nat :=
  (l.filterMap Action.commitReply).length

/-- Every failed repository call of the log is followed by `Discard` and nothing else. -/
def stopsAtFailure {M : Type} : List (Action M) → Prop
  | [] => True
  | a :: rest => (a.isFailedRepoCall = true → rest = [.Discard]) ∧ stopsAtFailure rest

/-- A call that goes through the unit of work after it was opened: a repository
call made with the context carrying it, `Commit`, or `Discard`. -/
def Action.usesTx {M : Type} : Action M → Bool
  | .NewTransaction => false
  | .IsTransactionConfirmed _ _ => false
  | .FundMarket _ _ _ => false
  | _ => true

/-- The calls that go through the unit of work after its first `Discard`. -/
def usesAfterDiscard {M : Type} : List (Action M) → List (Action M)
  | [] => []
  | .Discard :: rest => rest.filter Action.usesTx
  | _ :: rest => usesAfterDiscard rest

/-- What the claims say the batch is: in event order, one record per utxo whose
oracle call returned without error, carrying the oracle answer; nothing for a
utxo whose oracle call failed. `i` is the position of the first utxo. -/
def expectedBatch {M : Type} (w : World M) (address : String) : Nat → List Utxo → List Unspent
  | _, [] => []
  | i, utxo :: rest =>
    match w.IsTransactionConfirmed i utxo.hash with
    | .error _ => expectedBatch w address (i + 1) rest
    | .ok c =>
      { txid := utxo.hash, assetHash := utxo.asset, address := address, vout := utxo.index,
        value := utxo.value, spent := false, locked := false, optional1 := none,
        optional2 := none, confirmed := c } :: expectedBatch w address (i + 1) rest

/-- The sum of the balances the ledger reports for the addresses, without wrapping.
`i` is the position of the first address. -/
def balanceSum {M : Type} (w : World M) (asset : String) : Nat → List String → Nat
  | _, [] => 0
  | i, a :: rest => w.GetBalance i a asset + balanceSum w asset (i + 1) rest

/-! ## A concrete market, for examples -/

/-- Modelled from the spec: the entity `domain.Market`, which is not among the sources.
Section 3 gives it a quote asset, an account index, funding outpoints, a funded flag
and a tradable flag. -/
structure Market where
  AccountIndex : Nat
  QuoteAsset : String
  FundingTxs : List OutpointWithAsset
  Funded : Bool
  Tradable : Bool
deriving DecidableEq, Repr

/-- Modelled from the spec: the methods of `domain.Market`, which are not among the
sources. Funding sets the funded flag and the funding outpoints; on a funded market
it changes nothing. -/
def Market.ops : MarketOps Market where
  IsFunded := fun m => m.Funded
  FundMarket := fun m fundingTxs =>
    if m.Funded then .ok m else .ok { m with FundingTxs := fundingTxs, Funded := true }
  QuoteAssetHash := fun m => m.QuoteAsset
  AccountIndex := fun m => m.AccountIndex

/-! ## Example inputs -/

/-- Configuration of the examples: base asset `lbtc`, threshold 100000. -/
def exCfg : Config := { BaseAsset := "lbtc", FeeAccountBalanceThreshold := 100000, FeeAccount := 0 }

/-- A funded market with quote asset `usdt`. -/
def exUsdt : Market :=
  { AccountIndex := 5, QuoteAsset := "usdt",
    FundingTxs := [{ Asset := "usdt", Txid := "f0", Vout := 0 }], Funded := true,
    Tradable := false }

/-- A funded market with quote asset `eur`. -/
def exEur : Market :=
  { AccountIndex := 6, QuoteAsset := "eur",
    FundingTxs := [{ Asset := "eur", Txid := "f1", Vout := 1 }], Funded := true,
    Tradable := false }

/-- A market that is not funded yet. -/
def exFresh : Market :=
  { AccountIndex := 7, QuoteAsset := "", FundingTxs := [], Funded := false, Tradable := false }

/-- Ports of the examples: the oracle answers `oracle`, the first fee address holds
`balance`, `CloseMarket` answers `close`, the stored market is `stored`; every other
repository call succeeds, and `UpdateMarket` applies the update function to the
stored market once and returns its error. -/
def exWorld (oracle : Nat → String → Except Err Bool) (balance : Nat)
    (close : Nat → String → Option Err) (stored : Market) : World Market where
  IsTransactionConfirmed := oracle
  AddUnspents := fun _ => none
  GetTradableMarkets := .ok [exUsdt, exEur]
  GetAllDerivedAddressesAndBlindingKeysForAccount := fun _ => .ok ["fee0", "fee1"]
  GetBalance := fun i _ _ => if i = 0 then balance else 0
  CloseMarket := close
  OpenMarket := fun _ _ => none
  GetOrCreateMarket := fun _ => .ok stored
  UpdateMarket := fun _ f =>
    ([stored], match f stored with
      | .ok _ => none
      | .error err => some err)
  Commit := none

/-- Market methods whose `FundMarket` always fails. -/
def exOpsFundFails : MarketOps Market :=
  { Market.ops with FundMarket := fun _ _ => .error "cannot fund" }

/-- An oracle that reports every transaction confirmed. -/
def oracleConfirmed : Nat → String → Except Err Bool := fun _ _ => .ok true

/-- An oracle that reports every transaction not confirmed yet. -/
def oracleUnconfirmed : Nat → String → Except Err Bool := fun _ _ => .ok false

/-- An oracle that fails on the first utxo and reports the others confirmed. -/
def oracleFirstFails : Nat → String → Except Err Bool :=
  fun i _ => if i = 0 then .error "explorer unreachable" else .ok true

/-- Replies of `CloseMarket` that are all successes. -/
def closeOk : Nat → String → Option Err := fun _ _ => none

/-- Replies of `CloseMarket` that fail on the first market. -/
def closeFirstFails : Nat → String → Option Err :=
  fun i _ => if i = 0 then some "store error" else none

/-- Two utxos of the base asset. -/
def exUtxos : List Utxo :=
  [{ hash := "h1", asset := "lbtc", index := 0, value := 500 },
   { hash := "h2", asset := "lbtc", index := 1, value := 700 }]

/-- An address event carrying the two utxos, for account 7. -/
def exDeposit : AddressEvent := { AccountIndex := 7, Address := "addr", Utxos := exUtxos }

/-- An address event carrying one utxo. -/
def exDepositOne : AddressEvent :=
  { AccountIndex := 7, Address := "addr",
    Utxos := [{ hash := "h1", asset := "lbtc", index := 0, value := 500 }] }

/-- An address event without utxos. -/
def exDepositEmpty : AddressEvent := { AccountIndex := 7, Address := "addr", Utxos := [] }

end Tdex

namespace Unlockerd

/-! ## `cmd/unlockerd/main.go`: flag validation -/

/-- The flags read through viper: `rpc-address`, `provider`, `interval`. -/
structure Flags where
  rpcAddress : String
  provider : String
  interval : Int
deriving DecidableEq, Repr

/-- The errors `validate` returns, one per `fmt.Errorf` in source order. -/
inductive ValidateError where
  | rpcAddressNull
  | rpcAddressForm
  | rpcAddressHost
  | rpcAddressPort
  | providerNull
  | providerUnknown
  | intervalNotPositive
deriving DecidableEq, Repr

/-- The keys of the map `supportedProviders` (lines 54-56). -/
def supportedProviders : List String := ["file"]

/-- Splitting a character sequence at every occurrence of `sep`. -/
def splitChars (sep : Char) : List Char → List (List Char)
  | [] => [[]]
  | c :: cs =>
    if c = sep then [] :: splitChars sep cs
    else
      match splitChars sep cs with
      | [] => [[c]]
      | p :: ps => (c :: p) :: ps

/-- The library call `strings.Split(s, sep)` for a one-character separator. -/
def Split (s : String) (sep : Char) : List String :=
  (splitChars sep s.data).map String.mk

/-- The digits loop of `strconv.Atoi`: any byte outside `0`..`9` is a syntax error. -/
def parseDigits : List Char → Nat → Option Nat
  | [], n => some n
  | c :: cs, n =>
    if 48 ≤ c.toNat ∧ c.toNat ≤ 57 then parseDigits cs (n * 10 + (c.toNat - 48)) else none

/-- The library call `strconv.Atoi` for a 64-bit `int`: an optional sign, at least
one decimal digit, nothing else, and a value within the range of `int`; `none`
stands for a non-nil error. -/
def strconvAtoi (s : String) : Option Int :=
  match s.data with
  | [] => none
  | c :: cs =>
    let neg := decide (c = '-')
    let ds := if c = '-' ∨ c = '+' then cs else c :: cs
    match ds with
    | [] => none
    | d :: ds1 =>
      match parseDigits (d :: ds1) 0 with
      | none => none
      | some n =>
        if neg then (if n ≤ 2 ^ 63 then some (-(n : Int)) else none)
        else (if n < 2 ^ 63 then some (n : Int) else none)

/-- The function `validate` (lines 90-126). The two library calls it relies on are
parameters: `ParseIP host` tells whether `net.ParseIP(host)` returns a non-nil address,
`Atoi s` is the integer `strconv.Atoi(s)` returns, or `none` when it returns an error. -/
def validate (ParseIP : String → Bool) (Atoi : String → Option Int) (f : Flags) :
    Except ValidateError Unit :=
  if f.rpcAddress = "" then .error .rpcAddressNull
  else
    match Split f.rpcAddress ':' with
    | [host, portStr] =>
      if host ≠ "" ∧ host ≠ "localhost" ∧ ParseIP host = false then .error .rpcAddressHost
      else
        match Atoi portStr with
        | none => .error .rpcAddressPort
        | some port =>
          if port ≤ 1024 then .error .rpcAddressPort
          else if f.provider = "" then .error .providerNull
          else if f.provider ∉ supportedProviders then .error .providerUnknown
          else if f.interval ≤ 0 then .error .intervalNotPositive
          else .ok ()
    | _ => .error .rpcAddressForm

/-! ## `cmd/unlockerd/main.go`: the polling client -/

/-- The message `pbunlocker.IsReadyReply`. -/
structure IsReadyReply where
  Initialized : Bool
  Unlocked : Bool
deriving DecidableEq, Repr

/-- The calls `main` makes from line 153 on. -/
inductive Call where
  | IsReady
  | Sleep
  | UnlockWallet (password : String)
deriving DecidableEq, Repr

/-- How `main` ends: it returns, it ends in `log.Fatalf`, or it is still waiting
for a reply when the given replies are used up. -/
inductive Exit where
  | returned
  | fatal
  | waiting
deriving DecidableEq, Repr

/-- The loop `for !status.Initialized` (lines 160-170). `status` is the variable
of line 153; the `status` that line 163 declares with `:=` is local to the loop
body (`status1` here). The result is `none` when the loop is left. -/
def pollLoop (status : IsReadyReply) :
    List (Except Tdex.Err IsReadyReply) → List Call × Option Exit
  | [] => if status.Initialized then ([], none) else ([.Sleep], some .waiting)
  | reply :: rest =>
    if status.Initialized then ([], none)
    else
      match reply with
      | .error _ => ([.Sleep, .IsReady], some .fatal)
      | .ok status1 =>
        if status1.Initialized then ([.Sleep, .IsReady], none)
        else
          let r := pollLoop status rest
          (.Sleep :: .IsReady :: r.1, r.2)

/-- The function `main` from line 153 on, `getWalletStatus` inlined: `replies` are
the replies of the successive `IsReady` calls, `unlock` the error of `UnlockWallet`. -/
def main (password : String) (replies : List (Except Tdex.Err IsReadyReply))
    (unlock : Option Tdex.Err) : List Call × Exit :=
  match replies with
  | [] => ([], .waiting)
  | .error _ :: _ => ([.IsReady], .fatal)
  | .ok status :: rest =>
    let r := pollLoop status rest
    match r.2 with
    | some x => (.IsReady :: r.1, x)
    | none =>
      if status.Unlocked then (.IsReady :: r.1, .returned)
      else
        match unlock with
        | some _ => (.IsReady :: r.1 ++ [.UnlockWallet password], .fatal)
        | none => (.IsReady :: r.1 ++ [.UnlockWallet password], .returned)

/-- The number of `IsReady` calls. -/
def isReadyCalls : List Call → Nat
  | [] => 0
  | .IsReady :: rest => isReadyCalls rest + 1
  | _ :: rest => isReadyCalls rest

/-- The number of `UnlockWallet` calls. -/
def unlockWalletCalls : List Call → Nat
  | [] => 0
  | .UnlockWallet _ :: rest => unlockWalletCalls rest + 1
  | _ :: rest => unlockWalletCalls rest

end Unlockerd

namespace Tdex

/-! ## Lemmas on the loops -/

section Loops

variable {M : Type}

theorem utxoLoop_fst (w : World M) (address : String) (utxos : List Utxo) :
    ∀ (i : Nat) (unspents : List Unspent),
      (utxoLoop w address i utxos unspents).1 = unspents ++ expectedBatch w address i utxos := by
  induction utxos with
  | nil => intro i unspents; simp [utxoLoop, expectedBatch]
  | cons u rest ih =>
    intro i unspents
    unfold utxoLoop expectedBatch
    cases h : w.IsTransactionConfirmed i u.hash with
    | error err => simp [ih]
    | ok c => simp [ih, NewUnspent]

theorem mem_utxoLoop (w : World M) (address : String) (utxos : List Utxo) :
    ∀ (i : Nat) (unspents : List Unspent) (a : Action M),
      a ∈ (utxoLoop w address i utxos unspents).2 →
        (∃ h r, a = .IsTransactionConfirmed h r) ∨ a = .Discard := by
  induction utxos with
  | nil => intro i unspents a ha; simp [utxoLoop] at ha
  | cons u rest ih =>
    intro i unspents a ha
    unfold utxoLoop at ha
    cases h : w.IsTransactionConfirmed i u.hash with
    | error err =>
      simp only [h, List.mem_cons] at ha
      rcases ha with ha | ha | ha
      · exact Or.inl ⟨_, _, ha⟩
      · exact Or.inr ha
      · exact ih _ _ a ha
    | ok c =>
      simp only [h, List.mem_cons] at ha
      rcases ha with ha | ha
      · exact Or.inl ⟨_, _, ha⟩
      · exact ih _ _ a ha

theorem mem_balanceLoop (w : World M) (asset : String) (addresses : List String) :
    ∀ (i acc : Nat) (a : Action M),
      a ∈ (balanceLoop w asset i addresses acc).2 → ∃ x y z, a = .GetBalance x y z := by
  induction addresses with
  | nil => intro i acc a ha; simp [balanceLoop] at ha
  | cons x rest ih =>
    intro i acc a ha
    unfold balanceLoop at ha
    simp only [List.mem_cons] at ha
    rcases ha with ha | ha
    · exact ⟨_, _, _, ha⟩
    · exact ih _ _ a ha

theorem balanceLoop_fst (w : World M) (asset : String) (addresses : List String) :
    ∀ (i acc : Nat), acc < 2 ^ 64 →
      (balanceLoop w asset i addresses acc).1
        = (acc + balanceSum w asset i addresses) % 2 ^ 64 := by
  induction addresses with
  | nil =>
    intro i acc hacc
    simp only [balanceLoop, balanceSum, Nat.add_zero]
    exact (Nat.mod_eq_of_lt hacc).symm
  | cons x rest ih =>
    intro i acc _
    unfold balanceLoop balanceSum
    have h := ih (i + 1) ((acc + w.GetBalance i x asset) % 2 ^ 64)
      (Nat.mod_lt _ (by decide))
    simp only [h]
    omega

theorem balanceLoop_calls (w : World M) (asset : String) (addresses : List String) :
    ∀ (i acc : Nat),
      getBalanceCalls (balanceLoop w asset i addresses acc).2
        = addresses.map (fun a => (a, asset)) := by
  induction addresses with
  | nil => intro i acc; simp [balanceLoop, getBalanceCalls]
  | cons x rest ih =>
    intro i acc
    have := ih (i + 1) ((acc + w.GetBalance i x asset) % 2 ^ 64)
    simpa [balanceLoop, getBalanceCalls, Action.getBalanceArg] using this

theorem mem_closeLoop (ops : MarketOps M) (w : World M) (markets : List M) :
    ∀ (i : Nat) (a : Action M),
      a ∈ (closeLoop ops w i markets).1 → (∃ q e, a = .CloseMarket q e) ∨ a = .Discard := by
  induction markets with
  | nil => intro i a ha; simp [closeLoop] at ha
  | cons m rest ih =>
    intro i a ha
    unfold closeLoop at ha
    cases h : w.CloseMarket i (ops.QuoteAssetHash m) with
    | some err =>
      simp only [h, List.mem_cons, List.mem_singleton] at ha
      rcases ha with ha | ha | ha
      · exact Or.inl ⟨_, _, ha⟩
      · exact Or.inr ha
      · cases ha
    | none =>
      simp only [h, List.mem_cons] at ha
      rcases ha with ha | ha
      · exact Or.inl ⟨_, _, ha⟩
      · exact ih _ a ha

theorem mem_openLoop (ops : MarketOps M) (w : World M) (markets : List M) :
    ∀ (i : Nat) (a : Action M),
      a ∈ (openLoop ops w i markets).1 → (∃ q e, a = .OpenMarket q e) ∨ a = .Discard := by
  induction markets with
  | nil => intro i a ha; simp [openLoop] at ha
  | cons m rest ih =>
    intro i a ha
    unfold openLoop at ha
    cases h : w.OpenMarket i (ops.QuoteAssetHash m) with
    | some err =>
      simp only [h, List.mem_cons, List.mem_singleton] at ha
      rcases ha with ha | ha | ha
      · exact Or.inl ⟨_, _, ha⟩
      · exact Or.inr ha
      · cases ha
    | none =>
      simp only [h, List.mem_cons] at ha
      rcases ha with ha | ha
      · exact Or.inl ⟨_, _, ha⟩
      · exact ih _ a ha

theorem mem_updateCalls (ops : MarketOps M) (fundingTxs : List OutpointWithAsset)
    (applied : List M) (a : Action M) (ha : a ∈ updateCalls ops fundingTxs applied) :
    (∃ m r, a = .FundMarket m fundingTxs r) ∨ a = .Discard := by
  induction applied with
  | nil => simp [updateCalls] at ha
  | cons m rest ih =>
    unfold updateCalls at ha
    rcases List.mem_append.1 ha with h | h
    · unfold updateFn at h
      by_cases hf : ops.IsFunded m = true
      · simp [hf] at h
      · cases hm : ops.FundMarket m fundingTxs with
        | error err =>
          simp only [hf, hm, List.mem_cons] at h
          simp at h
          rcases h with h | h
          · exact Or.inl ⟨_, _, h⟩
          · exact Or.inr h
        | ok m1 =>
          simp only [hf, hm] at h
          simp at h
          exact Or.inl ⟨_, _, h⟩
    · exact ih h

/-- A loop that left without a failed call closed every market and set no flag. -/
theorem closeLoop_of_ok (ops : MarketOps M) (w : World M) (markets : List M) :
    ∀ (i : Nat), (∀ a ∈ (closeLoop ops w i markets).1, a.isFailedRepoCall = false) →
      closeLoop ops w i markets
        = (markets.map (fun m => Action.CloseMarket (ops.QuoteAssetHash m) none), false) := by
  induction markets with
  | nil => intro i _; simp [closeLoop]
  | cons m rest ih =>
    intro i hok
    unfold closeLoop at hok ⊢
    cases h : w.CloseMarket i (ops.QuoteAssetHash m) with
    | some err =>
      simp only [h] at hok
      have := hok _ (List.mem_cons_self _ _)
      simp [Action.isFailedRepoCall] at this
    | none =>
      simp only [h] at hok ⊢
      have := ih (i + 1) (fun a ha => hok a (List.mem_cons_of_mem _ ha))
      simp [this]

/-- A loop that left without a failed call opened every market and set no flag. -/
theorem openLoop_of_ok (ops : MarketOps M) (w : World M) (markets : List M) :
    ∀ (i : Nat), (∀ a ∈ (openLoop ops w i markets).1, a.isFailedRepoCall = false) →
      openLoop ops w i markets
        = (markets.map (fun m => Action.OpenMarket (ops.QuoteAssetHash m) none), false) := by
  induction markets with
  | nil => intro i _; simp [openLoop]
  | cons m rest ih =>
    intro i hok
    unfold openLoop at hok ⊢
    cases h : w.OpenMarket i (ops.QuoteAssetHash m) with
    | some err =>
      simp only [h] at hok
      have := hok _ (List.mem_cons_self _ _)
      simp [Action.isFailedRepoCall] at this
    | none =>
      simp only [h] at hok ⊢
      have := ih (i + 1) (fun a ha => hok a (List.mem_cons_of_mem _ ha))
      simp [this]

theorem filterMap_utxoLoop {α : Type} (sel : Action M → Option α)
    (h1 : ∀ h r, sel (.IsTransactionConfirmed h r) = none) (h2 : sel .Discard = none)
    (w : World M) (address : String) (i : Nat) (utxos : List Utxo) (unspents : List Unspent) :
    (utxoLoop w address i utxos unspents).2.filterMap sel = [] := by
  apply List.filterMap_eq_nil_iff.2
  intro a ha
  rcases mem_utxoLoop w address utxos i unspents a ha with ⟨h, r, rfl⟩ | rfl
  · exact h1 h r
  · exact h2

theorem filterMap_balanceLoop {α : Type} (sel : Action M → Option α)
    (h1 : ∀ x y z, sel (.GetBalance x y z) = none)
    (w : World M) (asset : String) (i acc : Nat) (addresses : List String) :
    (balanceLoop w asset i addresses acc).2.filterMap sel = [] := by
  apply List.filterMap_eq_nil_iff.2
  intro a ha
  rcases mem_balanceLoop w asset addresses i acc a ha with ⟨x, y, z, rfl⟩
  exact h1 x y z

theorem filterMap_closeLoop {α : Type} (sel : Action M → Option α)
    (h1 : ∀ q e, sel (.CloseMarket q e) = none) (h2 : sel .Discard = none)
    (ops : MarketOps M) (w : World M) (i : Nat) (markets : List M) :
    (closeLoop ops w i markets).1.filterMap sel = [] := by
  apply List.filterMap_eq_nil_iff.2
  intro a ha
  rcases mem_closeLoop ops w markets i a ha with ⟨q, e, rfl⟩ | rfl
  · exact h1 q e
  · exact h2

theorem filterMap_openLoop {α : Type} (sel : Action M → Option α)
    (h1 : ∀ q e, sel (.OpenMarket q e) = none) (h2 : sel .Discard = none)
    (ops : MarketOps M) (w : World M) (i : Nat) (markets : List M) :
    (openLoop ops w i markets).1.filterMap sel = [] := by
  apply List.filterMap_eq_nil_iff.2
  intro a ha
  rcases mem_openLoop ops w markets i a ha with ⟨q, e, rfl⟩ | rfl
  · exact h1 q e
  · exact h2

theorem filterMap_updateCalls {α : Type} (sel : Action M → Option α)
    (h1 : ∀ m f r, sel (.FundMarket m f r) = none) (h2 : sel .Discard = none)
    (ops : MarketOps M) (fundingTxs : List OutpointWithAsset) (applied : List M) :
    (updateCalls ops fundingTxs applied).filterMap sel = [] := by
  apply List.filterMap_eq_nil_iff.2
  intro a ha
  rcases mem_updateCalls ops fundingTxs applied a ha with ⟨m, r, rfl⟩ | rfl
  · exact h1 m _ r
  · exact h2

theorem utxoLoop_noFail (w : World M) (address : String) (i : Nat) (utxos : List Utxo)
    (unspents : List Unspent) :
    ∀ a ∈ (utxoLoop w address i utxos unspents).2, a.isFailedRepoCall = false := by
  intro a ha
  rcases mem_utxoLoop w address utxos i unspents a ha with ⟨h, r, rfl⟩ | rfl <;> rfl

theorem balanceLoop_noFail (w : World M) (asset : String) (i acc : Nat)
    (addresses : List String) :
    ∀ a ∈ (balanceLoop w asset i addresses acc).2, a.isFailedRepoCall = false := by
  intro a ha
  rcases mem_balanceLoop w asset addresses i acc a ha with ⟨x, y, z, rfl⟩
  rfl

theorem updateCalls_noFail (ops : MarketOps M) (fundingTxs : List OutpointWithAsset)
    (applied : List M) :
    ∀ a ∈ updateCalls ops fundingTxs applied, a.isFailedRepoCall = false := by
  intro a ha
  rcases mem_updateCalls ops fundingTxs applied a ha with ⟨m, r, rfl⟩ | rfl <;> rfl

/-- The batch of the only `AddUnspents` call of the fee-deposit arm. -/
theorem feeAccountDeposit_addUnspents (cfg : Config) (ops : MarketOps M) (w : World M)
    (e : AddressEvent) (hne : e.Utxos ≠ []) :
    addUnspentsCalls (feeAccountDeposit cfg ops w e).1
      = [expectedBatch w e.Address 0 e.Utxos] := by
  have hlen : e.Utxos.length > 0 := List.length_pos.2 hne
  have hu := filterMap_utxoLoop (M := M) Action.addUnspentsArg (fun _ _ => rfl) rfl
  have hb := filterMap_balanceLoop (M := M) Action.addUnspentsArg (fun _ _ _ => rfl)
  have hc := filterMap_closeLoop (M := M) Action.addUnspentsArg (fun _ _ => rfl) rfl
  have ho := filterMap_openLoop (M := M) Action.addUnspentsArg (fun _ _ => rfl) rfl
  unfold feeAccountDeposit
  simp only [hlen, if_true, utxoLoop_fst, List.nil_append, addUnspentsCalls]
  split
  · simp [List.filterMap_append, hu, Action.addUnspentsArg]
  · split
    · simp [List.filterMap_append, hu, Action.addUnspentsArg]
    · split
      · simp [List.filterMap_append, hu, Action.addUnspentsArg]
      · split
        · simp [List.filterMap_append, hu, hb, hc, Action.addUnspentsArg]
        · simp [List.filterMap_append, hu, hb, ho, Action.addUnspentsArg]

/-- The batch of the only `AddUnspents` call of the market-deposit arm. -/
theorem marketAccountDeposit_addUnspents (ops : MarketOps M) (w : World M)
    (e : AddressEvent) (hne : e.Utxos ≠ []) :
    addUnspentsCalls (marketAccountDeposit ops w e).1
      = [expectedBatch w e.Address 0 e.Utxos] := by
  have hlen : e.Utxos.length > 0 := List.length_pos.2 hne
  have hu := filterMap_utxoLoop (M := M) Action.addUnspentsArg (fun _ _ => rfl) rfl
  have hf := filterMap_updateCalls (M := M) Action.addUnspentsArg (fun _ _ _ => rfl) rfl
  unfold marketAccountDeposit
  simp only [hlen, if_true, utxoLoop_fst, List.nil_append, addUnspentsCalls]
  split
  · simp [List.filterMap_append, hu, Action.addUnspentsArg]
  · split
    · simp [List.filterMap_append, hu, Action.addUnspentsArg]
    · split
      · simp [List.filterMap_append, hu, hf, Action.addUnspentsArg]
      · simp [List.filterMap_append, hu, hf, Action.addUnspentsArg]

/-- The fee-deposit arm when no repository call fails: the calls it makes. -/
theorem feeAccountDeposit_of_ok (cfg : Config) (ops : MarketOps M) (w : World M)
    (e : AddressEvent) (hne : e.Utxos ≠ [])
    (hok : ∀ a ∈ (feeAccountDeposit cfg ops w e).1, a.isFailedRepoCall = false) :
    ∃ markets addresses,
      w.GetTradableMarkets = .ok markets ∧
      w.GetAllDerivedAddressesAndBlindingKeysForAccount cfg.FeeAccount = .ok addresses ∧
      feeAccountDeposit cfg ops w e =
        if (balanceLoop (M := M) w cfg.BaseAsset 0 addresses 0).1
            < toUint64 cfg.FeeAccountBalanceThreshold then
          ((utxoLoop w e.Address 0 e.Utxos []).2
            ++ [.AddUnspents (utxoLoop w e.Address 0 e.Utxos []).1 none,
              .GetTradableMarkets (.ok markets),
              .GetAllDerivedAddresses cfg.FeeAccount (.ok addresses)]
            ++ (balanceLoop w cfg.BaseAsset 0 addresses 0).2
            ++ markets.map (fun m => Action.CloseMarket (ops.QuoteAssetHash m) none),
            .continueEvents)
        else
          ((utxoLoop w e.Address 0 e.Utxos []).2
            ++ [.AddUnspents (utxoLoop w e.Address 0 e.Utxos []).1 none,
              .GetTradableMarkets (.ok markets),
              .GetAllDerivedAddresses cfg.FeeAccount (.ok addresses)]
            ++ (balanceLoop w cfg.BaseAsset 0 addresses 0).2
            ++ markets.map (fun m => Action.OpenMarket (ops.QuoteAssetHash m) none),
            .fallThrough) := by
  have hlen : e.Utxos.length > 0 := List.length_pos.2 hne
  unfold feeAccountDeposit at hok ⊢
  simp only [hlen, if_true] at hok ⊢
  cases hA : w.AddUnspents (utxoLoop w e.Address 0 e.Utxos []).1 with
  | some err =>
    exfalso
    simp only [hA] at hok
    have := hok (.AddUnspents (utxoLoop w e.Address 0 e.Utxos []).1 (some err)) (by simp)
    simp [Action.isFailedRepoCall] at this
  | none =>
    simp only [hA] at hok ⊢
    cases hT : w.GetTradableMarkets with
    | error err =>
      exfalso
      simp only [hT] at hok
      have := hok (.GetTradableMarkets (.error err)) (by simp)
      simp [Action.isFailedRepoCall] at this
    | ok markets =>
      simp only [hT] at hok ⊢
      cases hD : w.GetAllDerivedAddressesAndBlindingKeysForAccount cfg.FeeAccount with
      | error err =>
        exfalso
        simp only [hD] at hok
        have := hok (.GetAllDerivedAddresses cfg.FeeAccount (.error err)) (by simp)
        simp [Action.isFailedRepoCall] at this
      | ok addresses =>
        simp only [hD] at hok ⊢
        refine ⟨markets, addresses, rfl, rfl, ?_⟩
        by_cases hlt : (balanceLoop (M := M) w cfg.BaseAsset 0 addresses 0).1
            < toUint64 cfg.FeeAccountBalanceThreshold
        · simp only [hlt, if_true] at hok ⊢
          have hc := closeLoop_of_ok ops w markets 0
            (fun a ha => hok a (List.mem_append_right _ ha))
          rw [hc]
        · simp only [hlt, if_false] at hok ⊢
          have ho := openLoop_of_ok ops w markets 0
            (fun a ha => hok a (List.mem_append_right _ ha))
          rw [ho]
          simp

theorem stopsAtFailure_of_noFail (l : List (Action M))
    (h : ∀ a ∈ l, a.isFailedRepoCall = false) : stopsAtFailure l := by
  induction l with
  | nil => trivial
  | cons a rest ih =>
    refine ⟨fun ha => ?_, ih (fun b hb => h b (List.mem_cons_of_mem _ hb))⟩
    have := h a (List.mem_cons_self _ _)
    simp [this] at ha

theorem stopsAtFailure_append (l1 l2 : List (Action M))
    (h : ∀ a ∈ l1, a.isFailedRepoCall = false) (h2 : stopsAtFailure l2) :
    stopsAtFailure (l1 ++ l2) := by
  induction l1 with
  | nil => simpa using h2
  | cons a rest ih =>
    refine ⟨fun ha => ?_, ih (fun b hb => h b (List.mem_cons_of_mem _ hb))⟩
    have := h a (List.mem_cons_self _ _)
    simp [this] at ha

theorem stopsAtFailure_split (l : List (Action M)) (h : stopsAtFailure l) :
    ∀ (pre : List (Action M)) (a : Action M) (post : List (Action M)),
      l = pre ++ a :: post → a.isFailedRepoCall = true → post = [.Discard] := by
  intro pre
  induction pre generalizing l with
  | nil =>
    intro a post hl ha
    subst hl
    exact h.1 ha
  | cons b pre ih =>
    intro a post hl ha
    subst hl
    exact ih _ h.2 a post rfl ha

theorem closeLoop_stops (ops : MarketOps M) (w : World M) (markets : List M) :
    ∀ (i : Nat), stopsAtFailure (closeLoop ops w i markets).1 := by
  induction markets with
  | nil => intro i; simp [closeLoop, stopsAtFailure]
  | cons m rest ih =>
    intro i
    unfold closeLoop
    cases h : w.CloseMarket i (ops.QuoteAssetHash m) with
    | some err => simp [stopsAtFailure, Action.isFailedRepoCall]
    | none => exact ⟨fun ha => by simp [Action.isFailedRepoCall] at ha, ih (i + 1)⟩

theorem openLoop_stops (ops : MarketOps M) (w : World M) (markets : List M) :
    ∀ (i : Nat), stopsAtFailure (openLoop ops w i markets).1 := by
  induction markets with
  | nil => intro i; simp [openLoop, stopsAtFailure]
  | cons m rest ih =>
    intro i
    unfold openLoop
    cases h : w.OpenMarket i (ops.QuoteAssetHash m) with
    | some err => simp [stopsAtFailure, Action.isFailedRepoCall]
    | none => exact ⟨fun ha => by simp [Action.isFailedRepoCall] at ha, ih (i + 1)⟩

theorem openLoop_noFail (ops : MarketOps M) (w : World M) (markets : List M) :
    ∀ (i : Nat), (openLoop ops w i markets).2 = false →
      ∀ a ∈ (openLoop ops w i markets).1, a.isFailedRepoCall = false := by
  induction markets with
  | nil => intro i _ a ha; simp [openLoop] at ha
  | cons m rest ih =>
    intro i hflag a ha
    unfold openLoop at hflag ha
    cases h : w.OpenMarket i (ops.QuoteAssetHash m) with
    | some err => simp [h] at hflag
    | none =>
      simp only [h] at hflag ha
      rcases List.mem_cons.1 ha with rfl | ha
      · rfl
      · exact ih (i + 1) hflag a ha

/-- The body of the `switch` reaches `commitTx` only when no repository call failed. -/
theorem dispatch_fallThrough (cfg : Config) (ops : MarketOps M) (w : World M) (ev : Event)
    (hflow : (dispatch cfg ops w ev).2 = .fallThrough) :
    ∀ a ∈ (dispatch cfg ops w ev).1, a.isFailedRepoCall = false := by
  have hU := utxoLoop_noFail (M := M) w
  have hB := balanceLoop_noFail (M := M) w
  cases ev with
  | TransactionConfirmed => intro a ha; simp [dispatch] at ha
  | FeeAccountDeposit e =>
    simp only [dispatch] at hflow ⊢
    unfold feeAccountDeposit at hflow ⊢
    by_cases hlen : e.Utxos.length > 0
    · simp only [hlen, if_true] at hflow ⊢
      cases hA : w.AddUnspents (utxoLoop w e.Address 0 e.Utxos []).1 with
      | some err => simp [hA] at hflow
      | none =>
        simp only [hA] at hflow ⊢
        cases hT : w.GetTradableMarkets with
        | error err => simp [hT] at hflow
        | ok markets =>
          simp only [hT] at hflow ⊢
          cases hD : w.GetAllDerivedAddressesAndBlindingKeysForAccount cfg.FeeAccount with
          | error err => simp [hD] at hflow
          | ok addresses =>
            simp only [hD] at hflow ⊢
            by_cases hlt : (balanceLoop (M := M) w cfg.BaseAsset 0 addresses 0).1
                < toUint64 cfg.FeeAccountBalanceThreshold
            · simp [hlt] at hflow
            · simp only [hlt, if_false] at hflow ⊢
              have hflag : (openLoop ops w 0 markets).2 = false := by
                cases hf : (openLoop ops w 0 markets).2 with
                | true => simp [hf] at hflow
                | false => rfl
              intro a ha
              simp only [List.mem_append, List.mem_cons, List.mem_singleton] at ha
              rcases ha with ((ha | ha | ha | ha | ha) | ha) | ha
              · exact hU _ _ _ _ a ha
              · subst ha; rfl
              · subst ha; rfl
              · subst ha; rfl
              · simp at ha
              · exact hB _ _ _ _ a ha
              · exact openLoop_noFail ops w markets 0 hflag a ha
    · intro a ha; simp [hlen] at ha
  | MarketAccountDeposit e =>
    simp only [dispatch] at hflow ⊢
    unfold marketAccountDeposit at hflow ⊢
    by_cases hlen : e.Utxos.length > 0
    · simp only [hlen, if_true] at hflow ⊢
      cases hA : w.AddUnspents (utxoLoop w e.Address 0 e.Utxos []).1 with
      | some err => simp [hA] at hflow
      | none =>
        simp only [hA] at hflow ⊢
        cases hG : w.GetOrCreateMarket e.AccountIndex with
        | error err => simp [hG] at hflow
        | ok m =>
          simp only [hG] at hflow ⊢
          cases hUp : (w.UpdateMarket (ops.AccountIndex m)
              (fun m1 => (updateFn ops (fundingTxsOf e.Utxos) m1).1)).2 with
          | some err => simp [hUp] at hflow
          | none =>
            simp only [hUp]
            intro a ha
            simp only [List.mem_append, List.mem_cons, List.mem_singleton] at ha
            rcases ha with (((ha | ha | ha | ha) | ha)) | ha
            · exact hU _ _ _ _ a ha
            · subst ha; rfl
            · subst ha; rfl
            · simp at ha
            · exact updateCalls_noFail _ _ _ a ha
            · rcases ha with ha | ha
              · subst ha; rfl
              · simp at ha
    · intro a ha; simp [hlen] at ha

/-- In the body of the `switch`, a failed repository call is followed by `Discard` only. -/
theorem dispatch_stops (cfg : Config) (ops : MarketOps M) (w : World M) (ev : Event) :
    stopsAtFailure (dispatch cfg ops w ev).1 := by
  have hU := utxoLoop_noFail (M := M) w
  have hB := balanceLoop_noFail (M := M) w
  cases ev with
  | TransactionConfirmed => simp [dispatch, stopsAtFailure]
  | FeeAccountDeposit e =>
    simp only [dispatch]
    unfold feeAccountDeposit
    by_cases hlen : e.Utxos.length > 0
    · simp only [hlen, if_true]
      cases hA : w.AddUnspents (utxoLoop w e.Address 0 e.Utxos []).1 with
      | some err =>
        exact stopsAtFailure_append _ _ (hU _ _ _ _)
          (by simp [stopsAtFailure, Action.isFailedRepoCall])
      | none =>
        cases hT : w.GetTradableMarkets with
        | error err =>
          exact stopsAtFailure_append _ _ (hU _ _ _ _)
            (by simp [stopsAtFailure, Action.isFailedRepoCall])
        | ok markets =>
          cases hD : w.GetAllDerivedAddressesAndBlindingKeysForAccount cfg.FeeAccount with
          | error err =>
            exact stopsAtFailure_append _ _ (hU _ _ _ _)
              (by simp [stopsAtFailure, Action.isFailedRepoCall])
          | ok addresses =>
            have hpre : ∀ a ∈ (utxoLoop (M := M) w e.Address 0 e.Utxos []).2
                ++ [.AddUnspents (utxoLoop w e.Address 0 e.Utxos []).1 none,
                  .GetTradableMarkets (.ok markets),
                  .GetAllDerivedAddresses cfg.FeeAccount (.ok addresses)]
                ++ (balanceLoop w cfg.BaseAsset 0 addresses 0).2,
                a.isFailedRepoCall = false := by
              intro a ha
              simp only [List.mem_append, List.mem_cons, List.mem_singleton] at ha
              rcases ha with (ha | ha | ha | ha | ha) | ha
              · exact hU _ _ _ _ a ha
              · subst ha; rfl
              · subst ha; rfl
              · subst ha; rfl
              · simp at ha
              · exact hB _ _ _ _ a ha
            by_cases hlt : (balanceLoop (M := M) w cfg.BaseAsset 0 addresses 0).1
                < toUint64 cfg.FeeAccountBalanceThreshold
            · simp only [hlt, if_true]
              exact stopsAtFailure_append _ _ hpre (closeLoop_stops ops w markets 0)
            · simp only [hlt, if_false]
              exact stopsAtFailure_append _ _ hpre (openLoop_stops ops w markets 0)
    · simp [hlen, stopsAtFailure]
  | MarketAccountDeposit e =>
    simp only [dispatch]
    unfold marketAccountDeposit
    by_cases hlen : e.Utxos.length > 0
    · simp only [hlen, if_true]
      cases hA : w.AddUnspents (utxoLoop w e.Address 0 e.Utxos []).1 with
      | some err =>
        exact stopsAtFailure_append _ _ (hU _ _ _ _)
          (by simp [stopsAtFailure, Action.isFailedRepoCall])
      | none =>
        cases hG : w.GetOrCreateMarket e.AccountIndex with
        | error err =>
          exact stopsAtFailure_append _ _ (hU _ _ _ _)
            (by simp [stopsAtFailure, Action.isFailedRepoCall])
        | ok m =>
          have hpre : ∀ a ∈ (utxoLoop (M := M) w e.Address 0 e.Utxos []).2
              ++ [.AddUnspents (utxoLoop w e.Address 0 e.Utxos []).1 none,
                .GetOrCreateMarket e.AccountIndex (.ok m)]
              ++ updateCalls ops (fundingTxsOf e.Utxos) (w.UpdateMarket (ops.AccountIndex m)
                  (fun m1 => (updateFn ops (fundingTxsOf e.Utxos) m1).1)).1,
              a.isFailedRepoCall = false := by
            intro a ha
            simp only [List.mem_append, List.mem_cons, List.mem_singleton] at ha
            rcases ha with (ha | ha | ha | ha) | ha
            · exact hU _ _ _ _ a ha
            · subst ha; rfl
            · subst ha; rfl
            · simp at ha
            · exact updateCalls_noFail _ _ _ a ha
          cases hUp : (w.UpdateMarket (ops.AccountIndex m)
              (fun m1 => (updateFn ops (fundingTxsOf e.Utxos) m1).1)).2 with
          | some err =>
            simp only [hUp]
            exact stopsAtFailure_append _ _ hpre (by simp [stopsAtFailure, Action.isFailedRepoCall])
          | none =>
            simp only [hUp]
            exact stopsAtFailure_append _ _ hpre
              (by simp [stopsAtFailure, Action.isFailedRepoCall])
    · simp [hlen, stopsAtFailure]

/-- While one event is handled, a failed repository call is followed by `Discard` only. -/
theorem handleEvent_stops (cfg : Config) (ops : MarketOps M) (w : World M) (ev : Event) :
    stopsAtFailure (handleEvent cfg ops w ev) := by
  unfold handleEvent
  by_cases hflow : (dispatch cfg ops w ev).2 = .fallThrough
  · simp only [hflow, if_true]
    apply stopsAtFailure_of_noFail
    intro a ha
    simp only [List.mem_cons, List.mem_append, List.mem_singleton] at ha
    rcases ha with (ha | ha) | ha | ha
    · subst ha; rfl
    · exact dispatch_fallThrough cfg ops w ev hflow a ha
    · subst ha; rfl
    · simp at ha
  · simp only [hflow, if_false, List.append_nil]
    exact ⟨fun ha => by simp [Action.isFailedRepoCall] at ha, dispatch_stops cfg ops w ev⟩

/-- The body of the `switch` never calls `Commit`. -/
theorem dispatch_commitCalls (cfg : Config) (ops : MarketOps M) (w : World M) (ev : Event) :
    commitCalls (dispatch cfg ops w ev).1 = 0 := by
  have hu := filterMap_utxoLoop (M := M) Action.commitReply (fun _ _ => rfl) rfl
  have hb := filterMap_balanceLoop (M := M) Action.commitReply (fun _ _ _ => rfl)
  have hc := filterMap_closeLoop (M := M) Action.commitReply (fun _ _ => rfl) rfl
  have ho := filterMap_openLoop (M := M) Action.commitReply (fun _ _ => rfl) rfl
  have hf := filterMap_updateCalls (M := M) Action.commitReply (fun _ _ _ => rfl) rfl
  cases ev with
  | TransactionConfirmed => simp [dispatch, commitCalls]
  | FeeAccountDeposit e =>
    simp only [dispatch, commitCalls]
    unfold feeAccountDeposit
    by_cases hlen : e.Utxos.length > 0
    · simp only [hlen, if_true]
      split
      · simp [List.filterMap_append, hu, Action.commitReply]
      · split
        · simp [List.filterMap_append, hu, Action.commitReply]
        · split
          · simp [List.filterMap_append, hu, Action.commitReply]
          · split
            · simp [List.filterMap_append, hu, hb, hc, Action.commitReply]
            · simp [List.filterMap_append, hu, hb, ho, Action.commitReply]
    · simp [hlen]
  | MarketAccountDeposit e =>
    simp only [dispatch, commitCalls]
    unfold marketAccountDeposit
    by_cases hlen : e.Utxos.length > 0
    · simp only [hlen, if_true]
      split
      · simp [List.filterMap_append, hu, Action.commitReply]
      · split
        · simp [List.filterMap_append, hu, Action.commitReply]
        · split
          · simp [List.filterMap_append, hu, hf, Action.commitReply]
          · simp [List.filterMap_append, hu, hf, Action.commitReply]
    · simp [hlen]

theorem mem_expectedBatch (w : World M) (address : String) (utxos : List Utxo) :
    ∀ (k j : Nat) (u : Utxo) (c : Bool), utxos[j]? = some u →
      w.IsTransactionConfirmed (k + j) u.hash = .ok c →
      ({ txid := u.hash, assetHash := u.asset, address := address, vout := u.index,
         value := u.value, spent := false, locked := false, optional1 := none,
         optional2 := none, confirmed := c } : Unspent)
        ∈ expectedBatch w address k utxos := by
  induction utxos with
  | nil => intro k j u c hj; simp at hj
  | cons v rest ih =>
    intro k j u c hj hc
    unfold expectedBatch
    cases j with
    | zero =>
      simp only [List.getElem?_cons_zero, Option.some.injEq] at hj
      subst hj
      simp only [Nat.add_zero] at hc
      simp [hc]
    | succ j =>
      simp only [List.getElem?_cons_succ] at hj
      have hc1 : w.IsTransactionConfirmed (k + 1 + j) u.hash = .ok c := by
        rw [← hc]; congr 1; omega
      have := ih (k + 1) j u c hj hc1
      cases h : w.IsTransactionConfirmed k v.hash with
      | error err => simpa [h] using this
      | ok c1 => simp only [h]; exact List.mem_cons_of_mem _ this

theorem expectedBatch_mem (w : World M) (address : String) (utxos : List Utxo) :
    ∀ (k : Nat) (r : Unspent), r ∈ expectedBatch w address k utxos →
      ∃ (j : Nat) (u : Utxo) (c : Bool), utxos[j]? = some u ∧
        w.IsTransactionConfirmed (k + j) u.hash = .ok c ∧
        r = { txid := u.hash, assetHash := u.asset, address := address, vout := u.index,
              value := u.value, spent := false, locked := false, optional1 := none,
              optional2 := none, confirmed := c } := by
  induction utxos with
  | nil => intro k r hr; simp [expectedBatch] at hr
  | cons v rest ih =>
    intro k r hr
    unfold expectedBatch at hr
    have tail : r ∈ expectedBatch w address (k + 1) rest →
        ∃ (j : Nat) (u : Utxo) (c : Bool), (v :: rest)[j]? = some u ∧
          w.IsTransactionConfirmed (k + j) u.hash = .ok c ∧
          r = { txid := u.hash, assetHash := u.asset, address := address, vout := u.index,
                value := u.value, spent := false, locked := false, optional1 := none,
                optional2 := none, confirmed := c } := by
      intro h
      obtain ⟨j, u, c, hj, hc, hr⟩ := ih (k + 1) r h
      refine ⟨j + 1, u, c, by simpa using hj, ?_, hr⟩
      rw [← hc]; congr 1; omega
    cases h : w.IsTransactionConfirmed k v.hash with
    | error err =>
      simp only [h] at hr
      exact tail hr
    | ok c1 =>
      simp only [h] at hr
      rcases List.mem_cons.1 hr with hr | hr
      · exact ⟨0, v, c1, by simp, by simpa using h, hr⟩
      · exact tail hr

theorem handleEvent_addUnspents_fee (cfg : Config) (ops : MarketOps M) (w : World M)
    (e : AddressEvent) (hne : e.Utxos ≠ []) :
    addUnspentsCalls (handleEvent cfg ops w (.FeeAccountDeposit e))
      = [expectedBatch w e.Address 0 e.Utxos] := by
  have h := feeAccountDeposit_addUnspents cfg ops w e hne
  simp only [addUnspentsCalls] at h
  unfold handleEvent
  simp only [dispatch, addUnspentsCalls, List.filterMap_append, List.filterMap_cons,
    Action.addUnspentsArg, h]
  split <;> simp [Action.addUnspentsArg]

theorem handleEvent_addUnspents_market (cfg : Config) (ops : MarketOps M) (w : World M)
    (e : AddressEvent) (hne : e.Utxos ≠ []) :
    addUnspentsCalls (handleEvent cfg ops w (.MarketAccountDeposit e))
      = [expectedBatch w e.Address 0 e.Utxos] := by
  have h := marketAccountDeposit_addUnspents ops w e hne
  simp only [addUnspentsCalls] at h
  unfold handleEvent
  simp only [dispatch, addUnspentsCalls, List.filterMap_append, List.filterMap_cons,
    Action.addUnspentsArg, h]
  split <;> simp [Action.addUnspentsArg]

theorem filterMap_open_of_open (ops : MarketOps M) (markets : List M) :
    (markets.map (fun m => (Action.OpenMarket (ops.QuoteAssetHash m) none : Action M))).filterMap
      Action.openMarketArg = markets.map ops.QuoteAssetHash := by
  induction markets with
  | nil => rfl
  | cons m rest ih => simpa [Action.openMarketArg] using ih

theorem filterMap_close_of_close (ops : MarketOps M) (markets : List M) :
    (markets.map (fun m => (Action.CloseMarket (ops.QuoteAssetHash m) none : Action M))).filterMap
      Action.closeMarketArg = markets.map ops.QuoteAssetHash := by
  induction markets with
  | nil => rfl
  | cons m rest ih => simpa [Action.closeMarketArg] using ih

theorem filterMap_of_open {α : Type} (sel : Action M → Option α)
    (h : ∀ q e, sel (.OpenMarket q e) = none) (ops : MarketOps M) (markets : List M) :
    (markets.map (fun m => Action.OpenMarket (ops.QuoteAssetHash m) none)).filterMap sel
      = [] := by
  apply List.filterMap_eq_nil_iff.2
  intro a ha
  obtain ⟨m, _, rfl⟩ := List.mem_map.1 ha
  exact h _ _

theorem filterMap_of_close {α : Type} (sel : Action M → Option α)
    (h : ∀ q e, sel (.CloseMarket q e) = none) (ops : MarketOps M) (markets : List M) :
    (markets.map (fun m => Action.CloseMarket (ops.QuoteAssetHash m) none)).filterMap sel
      = [] := by
  apply List.filterMap_eq_nil_iff.2
  intro a ha
  obtain ⟨m, _, rfl⟩ := List.mem_map.1 ha
  exact h _ _

theorem toUint64_of_nonneg (n : Int) (h0 : 0 ≤ n) (h1 : n < 2 ^ 63) :
    toUint64 n = n.toNat := by
  unfold toUint64
  rw [Int.emod_eq_of_lt h0 (by omega)]

/-- The whole log of a fee deposit with utxos when no repository call fails. -/
theorem handleEvent_fee_of_ok (cfg : Config) (ops : MarketOps M) (w : World M)
    (e : AddressEvent) (hne : e.Utxos ≠ [])
    (hok : ∀ a ∈ handleEvent cfg ops w (.FeeAccountDeposit e), a.isFailedRepoCall = false) :
    ∃ markets addresses,
      w.GetTradableMarkets = .ok markets ∧
      w.GetAllDerivedAddressesAndBlindingKeysForAccount cfg.FeeAccount = .ok addresses ∧
      handleEvent cfg ops w (.FeeAccountDeposit e) =
        if (balanceSum w cfg.BaseAsset 0 addresses) % 2 ^ 64
            < toUint64 cfg.FeeAccountBalanceThreshold then
          .NewTransaction :: ((utxoLoop w e.Address 0 e.Utxos []).2
            ++ [.AddUnspents (utxoLoop w e.Address 0 e.Utxos []).1 none,
              .GetTradableMarkets (.ok markets),
              .GetAllDerivedAddresses cfg.FeeAccount (.ok addresses)]
            ++ (balanceLoop w cfg.BaseAsset 0 addresses 0).2
            ++ markets.map (fun m => Action.CloseMarket (ops.QuoteAssetHash m) none))
        else
          .NewTransaction :: ((utxoLoop w e.Address 0 e.Utxos []).2
            ++ [.AddUnspents (utxoLoop w e.Address 0 e.Utxos []).1 none,
              .GetTradableMarkets (.ok markets),
              .GetAllDerivedAddresses cfg.FeeAccount (.ok addresses)]
            ++ (balanceLoop w cfg.BaseAsset 0 addresses 0).2
            ++ markets.map (fun m => Action.OpenMarket (ops.QuoteAssetHash m) none))
            ++ [.Commit w.Commit] := by
  have hbody : ∀ a ∈ (feeAccountDeposit cfg ops w e).1, a.isFailedRepoCall = false := by
    intro a ha
    apply hok
    simp only [handleEvent, dispatch, List.mem_append, List.mem_cons]
    exact Or.inl (Or.inr ha)
  obtain ⟨markets, addresses, hm, ha, heq⟩ := feeAccountDeposit_of_ok cfg ops w e hne hbody
  refine ⟨markets, addresses, hm, ha, ?_⟩
  have hbal := balanceLoop_fst w cfg.BaseAsset addresses 0 0 (by decide)
  rw [Nat.zero_add] at hbal
  rw [hbal] at heq
  simp only [handleEvent, dispatch, heq]
  split <;> simp

end Loops

/-! ## The claims on the blockchain listener -/

section Claims

variable {M : Type}

/-- C1: for a `FeeAccountDeposit` event with utxos in which no repository call fails,
with a threshold that is a non-negative Go `int` and a fee-account balance sum below
`2^64`: if the sum of the `GetBalance` replies over the fee-account addresses is at
least the threshold, `OpenMarket` is called on every market `GetTradableMarkets`
returned, in order, and `CloseMarket` on none; if it is strictly below, `CloseMarket`
is called on every such market and `OpenMarket` on none. -/
theorem feeAccountDeposit_opens_or_closes_by_threshold (cfg : Config) (ops : MarketOps M)
    (w : World M) (e : AddressEvent) (markets : List M) (addresses : List String)
    (hne : e.Utxos ≠ [])
    (hok : ∀ a ∈ handleEvent cfg ops w (.FeeAccountDeposit e), a.isFailedRepoCall = false)
    (hthr : 0 ≤ cfg.FeeAccountBalanceThreshold)
    (hint : cfg.FeeAccountBalanceThreshold < 2 ^ 63)
    (hm : w.GetTradableMarkets = .ok markets)
    (ha : w.GetAllDerivedAddressesAndBlindingKeysForAccount cfg.FeeAccount = .ok addresses)
    (hsum : balanceSum w cfg.BaseAsset 0 addresses < 2 ^ 64) :
    (cfg.FeeAccountBalanceThreshold ≤ (balanceSum w cfg.BaseAsset 0 addresses : Int) →
      openMarketCalls (handleEvent cfg ops w (.FeeAccountDeposit e))
          = markets.map ops.QuoteAssetHash ∧
        closeMarketCalls (handleEvent cfg ops w (.FeeAccountDeposit e)) = []) ∧
    ((balanceSum w cfg.BaseAsset 0 addresses : Int) < cfg.FeeAccountBalanceThreshold →
      closeMarketCalls (handleEvent cfg ops w (.FeeAccountDeposit e))
          = markets.map ops.QuoteAssetHash ∧
        openMarketCalls (handleEvent cfg ops w (.FeeAccountDeposit e)) = []) := by
  obtain ⟨markets1, addresses1, hm1, ha1, heq⟩ := handleEvent_fee_of_ok cfg ops w e hne hok
  rw [hm] at hm1
  rw [ha] at ha1
  cases hm1
  cases ha1
  rw [Nat.mod_eq_of_lt hsum, toUint64_of_nonneg _ hthr hint] at heq
  have huo := filterMap_utxoLoop (M := M) Action.openMarketArg (fun _ _ => rfl) rfl
  have hbo := filterMap_balanceLoop (M := M) Action.openMarketArg (fun _ _ _ => rfl)
  have huc := filterMap_utxoLoop (M := M) Action.closeMarketArg (fun _ _ => rfl) rfl
  have hbc := filterMap_balanceLoop (M := M) Action.closeMarketArg (fun _ _ _ => rfl)
  have hco := filterMap_of_close (M := M) Action.openMarketArg (fun _ _ => rfl) ops
  have hoc := filterMap_of_open (M := M) Action.closeMarketArg (fun _ _ => rfl) ops
  constructor
  · intro hge
    have hnlt : ¬ balanceSum w cfg.BaseAsset 0 addresses
        < cfg.FeeAccountBalanceThreshold.toNat := by omega
    rw [if_neg hnlt] at heq
    rw [heq]
    simp [-List.filterMap_map, openMarketCalls, closeMarketCalls, List.filterMap_append, huo,
      hbo, huc, hbc, hoc,
      filterMap_open_of_open, Action.openMarketArg, Action.closeMarketArg]
  · intro hlt
    have hlt1 : balanceSum w cfg.BaseAsset 0 addresses
        < cfg.FeeAccountBalanceThreshold.toNat := by omega
    rw [if_pos hlt1] at heq
    rw [heq]
    simp [-List.filterMap_map, openMarketCalls, closeMarketCalls, List.filterMap_append, huo,
      hbo, huc, hbc, hco,
      filterMap_close_of_close, Action.openMarketArg, Action.closeMarketArg]

/-- Witness of C1 with a balance above the threshold: both markets are opened, none closed. -/
theorem feeAccountDeposit_opens_or_closes_by_threshold_witness :
    openMarketCalls (handleEvent exCfg Market.ops
        (exWorld oracleConfirmed 150000 closeOk exUsdt) (.FeeAccountDeposit exDeposit))
      = [exUsdt, exEur].map Market.ops.QuoteAssetHash ∧
    closeMarketCalls (handleEvent exCfg Market.ops
        (exWorld oracleConfirmed 150000 closeOk exUsdt) (.FeeAccountDeposit exDeposit)) = [] :=
  (feeAccountDeposit_opens_or_closes_by_threshold exCfg Market.ops
    (exWorld oracleConfirmed 150000 closeOk exUsdt) exDeposit [exUsdt, exEur] ["fee0", "fee1"]
    (by decide) (by decide) (by decide) (by decide) rfl rfl (by decide)).1 (by decide)

/-- C2 at the failing input: a `FeeAccountDeposit` with one confirmed utxo, a fee balance
of 50000 below the threshold 100000, and every `CloseMarket` call succeeding. The
handler closes both markets and leaves by `continue events` (line 141): the log of the
event holds neither `Commit` nor `Discard`. With a balance of 150000 the same event
ends with `Commit`. -/
theorem low_balance_deposit_neither_commits_nor_discards :
    handleEvent exCfg Market.ops (exWorld oracleConfirmed 50000 closeOk exUsdt)
        (.FeeAccountDeposit exDepositOne)
      = [.NewTransaction,
         .IsTransactionConfirmed "h1" (.ok true),
         .AddUnspents [{ txid := "h1", assetHash := "lbtc", address := "addr", vout := 0,
                         value := 500, spent := false, locked := false, optional1 := none,
                         optional2 := none, confirmed := true }] none,
         .GetTradableMarkets (.ok [exUsdt, exEur]),
         .GetAllDerivedAddresses 0 (.ok ["fee0", "fee1"]),
         .GetBalance "fee0" "lbtc" 50000,
         .GetBalance "fee1" "lbtc" 0,
         .CloseMarket "usdt" none,
         .CloseMarket "eur" none] ∧
    commitCalls (handleEvent exCfg Market.ops (exWorld oracleConfirmed 50000 closeOk exUsdt)
        (.FeeAccountDeposit exDepositOne)) = 0 ∧
    discardCalls (handleEvent exCfg Market.ops (exWorld oracleConfirmed 50000 closeOk exUsdt)
        (.FeeAccountDeposit exDepositOne)) = 0 ∧
    commitCalls (handleEvent exCfg Market.ops (exWorld oracleConfirmed 150000 closeOk exUsdt)
        (.FeeAccountDeposit exDepositOne)) = 1 :=
  ⟨rfl, by decide, by decide, by decide⟩

/-- C3: while an event is handled (in particular a `FeeAccountDeposit` or
`MarketAccountDeposit` with utxos), if a repository call returns an error, then the
only call that follows it for this event is `Discard` (so no later repository call and
no `Commit`), the event makes no `Commit` call, and the log goes on with the next event. -/
theorem failed_repository_call_aborts_event (cfg : Config) (ops : MarketOps M)
    (ws : Nat → World M) (k : Nat) (ev : Event) (rest : List Event)
    (pre : List (Action M)) (a : Action M) (post : List (Action M))
    (hsplit : handleEvent cfg ops (ws k) ev = pre ++ a :: post)
    (hfail : a.isFailedRepoCall = true) :
    post = [.Discard] ∧
    commitCalls (handleEvent cfg ops (ws k) ev) = 0 ∧
    handleBlockChainEvents cfg ops ws k (ev :: rest)
      = pre ++ a :: .Discard :: handleBlockChainEvents cfg ops ws (k + 1) rest := by
  have hpost := stopsAtFailure_split _ (handleEvent_stops cfg ops (ws k) ev) pre a post
    hsplit hfail
  subst hpost
  refine ⟨rfl, ?_, ?_⟩
  · have hmem : a ∈ handleEvent cfg ops (ws k) ev := by rw [hsplit]; simp
    have hflow : (dispatch cfg ops (ws k) ev).2 ≠ .fallThrough := by
      intro hflow
      unfold handleEvent at hmem
      simp only [hflow, if_true, List.mem_cons, List.mem_append, List.mem_singleton] at hmem
      rcases hmem with (h | h) | h | h
      · subst h; simp [Action.isFailedRepoCall] at hfail
      · have := dispatch_fallThrough cfg ops (ws k) ev hflow a h
        simp [this] at hfail
      · subst h; simp [Action.isFailedRepoCall] at hfail
      · simp at h
    have hc := dispatch_commitCalls cfg ops (ws k) ev
    simp only [commitCalls] at hc
    unfold handleEvent
    simp only [hflow, if_false, List.append_nil, commitCalls, List.filterMap_cons,
      Action.commitReply]
    exact hc
  · simp only [handleBlockChainEvents, hsplit, List.append_assoc, List.cons_append,
      List.nil_append]

/-- Witness of C3: the first `CloseMarket` call fails; `Discard` follows and nothing else. -/
theorem failed_repository_call_aborts_event_witness :
    commitCalls (handleEvent exCfg Market.ops
      (exWorld oracleConfirmed 50000 closeFirstFails exUsdt)
      (.FeeAccountDeposit exDepositOne)) = 0 :=
  (failed_repository_call_aborts_event exCfg Market.ops
    (fun _ => exWorld oracleConfirmed 50000 closeFirstFails exUsdt) 0
    (.FeeAccountDeposit exDepositOne) []
    [.NewTransaction,
     .IsTransactionConfirmed "h1" (.ok true),
     .AddUnspents [{ txid := "h1", assetHash := "lbtc", address := "addr", vout := 0,
                     value := 500, spent := false, locked := false, optional1 := none,
                     optional2 := none, confirmed := true }] none,
     .GetTradableMarkets (.ok [exUsdt, exEur]),
     .GetAllDerivedAddresses 0 (.ok ["fee0", "fee1"]),
     .GetBalance "fee0" "lbtc" 50000,
     .GetBalance "fee1" "lbtc" 0]
    (.CloseMarket "usdt" (some "store error")) [.Discard] rfl rfl).2.1

/-- C4: for a `FeeAccountDeposit` or `MarketAccountDeposit` event with utxos and any
replies of the oracle and the repositories, the handler calls `AddUnspents` exactly
once, with the batch that holds, in event order, one record per utxo whose
`IsTransactionConfirmed` call returned without error (so every utxo reported confirmed
has its record, whatever happened to the others) and nothing for a utxo whose call
failed; each record carries the hash, asset, index and value of the utxo, the address
of the event, `spent = false`, `locked = false` and the oracle answer as `confirmed`. -/
theorem addUnspents_batch_isolation (cfg : Config) (ops : MarketOps M) (w : World M)
    (e : AddressEvent) (hne : e.Utxos ≠ []) :
    addUnspentsCalls (handleEvent cfg ops w (.FeeAccountDeposit e))
      = [expectedBatch w e.Address 0 e.Utxos] ∧
    addUnspentsCalls (handleEvent cfg ops w (.MarketAccountDeposit e))
      = [expectedBatch w e.Address 0 e.Utxos] ∧
    (∀ (j : Nat) (u : Utxo) (c : Bool), e.Utxos[j]? = some u →
      w.IsTransactionConfirmed j u.hash = .ok c →
      ({ txid := u.hash, assetHash := u.asset, address := e.Address, vout := u.index,
         value := u.value, spent := false, locked := false, optional1 := none,
         optional2 := none, confirmed := c } : Unspent)
        ∈ expectedBatch w e.Address 0 e.Utxos) ∧
    (∀ r ∈ expectedBatch w e.Address 0 e.Utxos,
      ∃ (j : Nat) (u : Utxo) (c : Bool), e.Utxos[j]? = some u ∧
        w.IsTransactionConfirmed j u.hash = .ok c ∧
        r = { txid := u.hash, assetHash := u.asset, address := e.Address, vout := u.index,
              value := u.value, spent := false, locked := false, optional1 := none,
              optional2 := none, confirmed := c }) := by
  refine ⟨handleEvent_addUnspents_fee cfg ops w e hne,
    handleEvent_addUnspents_market cfg ops w e hne, ?_, ?_⟩
  · intro j u c hj hc
    exact mem_expectedBatch w e.Address e.Utxos 0 j u c hj (by simpa using hc)
  · intro r hr
    obtain ⟨j, u, c, hj, hc, hr⟩ := expectedBatch_mem w e.Address e.Utxos 0 r hr
    exact ⟨j, u, c, hj, by simpa using hc, hr⟩

/-- Witness of C4: the oracle fails on the first of two utxos; the batch is the record
of the second one. -/
theorem addUnspents_batch_isolation_witness :
    addUnspentsCalls (handleEvent exCfg Market.ops
        (exWorld oracleFirstFails 150000 closeOk exUsdt) (.FeeAccountDeposit exDeposit))
      = [[{ txid := "h2", assetHash := "lbtc", address := "addr", vout := 1, value := 700,
            spent := false, locked := false, optional1 := none, optional2 := none,
            confirmed := true }]] :=
  (addUnspents_batch_isolation exCfg Market.ops
    (exWorld oracleFirstFails 150000 closeOk exUsdt) exDeposit (by decide)).1

/-- C5 at the failing input: a `FeeAccountDeposit` with one utxo whose
`IsTransactionConfirmed` call fails, every repository call succeeding. The handler
calls `Discard` (line 68) and goes on with the same unit of work: eight calls go
through it afterwards, the last one being `Commit`. In a `MarketAccountDeposit` whose
`FundMarket` fails, `Discard` is called twice (lines 229 and 237). -/
theorem oracle_failure_discards_and_reuses_unit_of_work :
    handleEvent exCfg Market.ops (exWorld oracleFirstFails 150000 closeOk exUsdt)
        (.FeeAccountDeposit exDepositOne)
      = [.NewTransaction,
         .IsTransactionConfirmed "h1" (.error "explorer unreachable"),
         .Discard,
         .AddUnspents [] none,
         .GetTradableMarkets (.ok [exUsdt, exEur]),
         .GetAllDerivedAddresses 0 (.ok ["fee0", "fee1"]),
         .GetBalance "fee0" "lbtc" 150000,
         .GetBalance "fee1" "lbtc" 0,
         .OpenMarket "usdt" none,
         .OpenMarket "eur" none,
         .Commit none] ∧
    (usesAfterDiscard (handleEvent exCfg Market.ops
        (exWorld oracleFirstFails 150000 closeOk exUsdt)
        (.FeeAccountDeposit exDepositOne))).length = 8 ∧
    discardCalls (handleEvent exCfg exOpsFundFails
        (exWorld oracleConfirmed 150000 closeOk exFresh)
        (.MarketAccountDeposit exDepositOne)) = 2 :=
  ⟨rfl, by decide, by decide⟩

/-- C6, counterexample: the oracle reports the only utxo of a `FeeAccountDeposit` as not
confirmed, without error, and the batch passed to `AddUnspents` holds its record. -/
theorem unconfirmed_utxo_is_in_the_batch :
    (exWorld oracleUnconfirmed 150000 closeOk exUsdt).IsTransactionConfirmed 0 "h1"
      = .ok false ∧
    addUnspentsCalls (handleEvent exCfg Market.ops
        (exWorld oracleUnconfirmed 150000 closeOk exUsdt) (.FeeAccountDeposit exDepositOne))
      = [[{ txid := "h1", assetHash := "lbtc", address := "addr", vout := 0, value := 500,
            spent := false, locked := false, optional1 := none, optional2 := none,
            confirmed := false }]] :=
  ⟨rfl, by decide⟩

/-- C6 as amended: for a `FeeAccountDeposit` or `MarketAccountDeposit` event with utxos,
a utxo whose `IsTransactionConfirmed` call returned `false` without error is not
dropped: the one batch passed to `AddUnspents` holds its record, with
`confirmed = false`. -/
theorem unconfirmed_utxo_recorded_with_flag (cfg : Config) (ops : MarketOps M) (w : World M)
    (e : AddressEvent) (hne : e.Utxos ≠ []) (j : Nat) (u : Utxo)
    (hj : e.Utxos[j]? = some u) (hu : w.IsTransactionConfirmed j u.hash = .ok false) :
    ∃ batch : List Unspent,
      addUnspentsCalls (handleEvent cfg ops w (.FeeAccountDeposit e)) = [batch] ∧
      addUnspentsCalls (handleEvent cfg ops w (.MarketAccountDeposit e)) = [batch] ∧
      ({ txid := u.hash, assetHash := u.asset, address := e.Address, vout := u.index,
         value := u.value, spent := false, locked := false, optional1 := none,
         optional2 := none, confirmed := false } : Unspent) ∈ batch :=
  ⟨expectedBatch w e.Address 0 e.Utxos, handleEvent_addUnspents_fee cfg ops w e hne,
    handleEvent_addUnspents_market cfg ops w e hne,
    mem_expectedBatch w e.Address e.Utxos 0 j u false hj (by simpa using hu)⟩

/-- Witness of the amended C6 on the second of two unconfirmed utxos. -/
theorem unconfirmed_utxo_recorded_with_flag_witness :
    ∃ batch : List Unspent,
      addUnspentsCalls (handleEvent exCfg Market.ops
        (exWorld oracleUnconfirmed 150000 closeOk exUsdt) (.FeeAccountDeposit exDeposit))
        = [batch] ∧
      addUnspentsCalls (handleEvent exCfg Market.ops
        (exWorld oracleUnconfirmed 150000 closeOk exUsdt) (.MarketAccountDeposit exDeposit))
        = [batch] ∧
      ({ txid := "h2", assetHash := "lbtc", address := "addr", vout := 1, value := 700,
         spent := false, locked := false, optional1 := none, optional2 := none,
         confirmed := false } : Unspent) ∈ batch :=
  unconfirmed_utxo_recorded_with_flag exCfg Market.ops
    (exWorld oracleUnconfirmed 150000 closeOk exUsdt) exDeposit (by decide) 1
    { hash := "h2", asset := "lbtc", index := 1, value := 700 } rfl rfl

theorem fundingTxsOf_eq_map (utxos : List Utxo) :
    fundingTxsOf utxos
      = utxos.map (fun u => ({ Asset := u.asset, Txid := u.hash, Vout := u.index } :
          OutpointWithAsset)) := by
  induction utxos with
  | nil => rfl
  | cons u rest ih => simp [fundingTxsOf, ih]

theorem updateCalls_of_funded (ops : MarketOps M) (fundingTxs : List OutpointWithAsset)
    (applied : List M) (h : ∀ m ∈ applied, ops.IsFunded m = true) :
    updateCalls ops fundingTxs applied = [] := by
  induction applied with
  | nil => rfl
  | cons m rest ih =>
    have hm := h m (List.mem_cons_self _ _)
    simp [updateCalls, updateFn, hm, ih (fun x hx => h x (List.mem_cons_of_mem _ hx))]

/-- C7: the update function the `MarketAccountDeposit` arm passes to `UpdateMarket`,
applied to a funded market, returns that market unchanged, without error and without
any call; applied to a market that is not funded it calls `FundMarket` exactly once,
with the list that has one `(asset, txid, vout)` entry per utxo of the event, in event
order, and returns what `FundMarket` returns. The `FundMarket` calls of the handler are
those of this function on the markets the repository applies it to, so when those
markets are funded already the handler makes no `FundMarket` call. -/
theorem updateFn_funded_market_unchanged (cfg : Config) (ops : MarketOps M) (w : World M)
    (e : AddressEvent) (hne : e.Utxos ≠ []) :
    (∀ m, ops.IsFunded m = true → updateFn ops (fundingTxsOf e.Utxos) m = (.ok m, [])) ∧
    (∀ m, ops.IsFunded m = false →
      fundMarketCalls (updateFn ops (fundingTxsOf e.Utxos) m).2 = [fundingTxsOf e.Utxos] ∧
      (updateFn ops (fundingTxsOf e.Utxos) m).1 = ops.FundMarket m (fundingTxsOf e.Utxos)) ∧
    fundingTxsOf e.Utxos
      = e.Utxos.map (fun u => ({ Asset := u.asset, Txid := u.hash, Vout := u.index } :
          OutpointWithAsset)) ∧
    (∀ m, w.AddUnspents (expectedBatch w e.Address 0 e.Utxos) = none →
      w.GetOrCreateMarket e.AccountIndex = .ok m →
      fundMarketCalls (handleEvent cfg ops w (.MarketAccountDeposit e))
        = fundMarketCalls (updateCalls ops (fundingTxsOf e.Utxos)
            (w.UpdateMarket (ops.AccountIndex m)
              (fun m1 => (updateFn ops (fundingTxsOf e.Utxos) m1).1)).1)) ∧
    (∀ applied : List M, (∀ m ∈ applied, ops.IsFunded m = true) →
      updateCalls ops (fundingTxsOf e.Utxos) applied = []) := by
  refine ⟨?_, ?_, fundingTxsOf_eq_map e.Utxos, ?_, ?_⟩
  · intro m hm
    simp [updateFn, hm]
  · intro m hm
    unfold updateFn
    cases hf : ops.FundMarket m (fundingTxsOf e.Utxos) with
    | error err => simp [hm, fundMarketCalls, Action.fundMarketArg]
    | ok m1 => simp [hm, fundMarketCalls, Action.fundMarketArg]
  · intro m hA hG
    have hlen : e.Utxos.length > 0 := List.length_pos.2 hne
    have hu := filterMap_utxoLoop (M := M) Action.fundMarketArg (fun _ _ => rfl) rfl
    have hA1 : w.AddUnspents (utxoLoop w e.Address 0 e.Utxos []).1 = none := by
      rw [utxoLoop_fst]; simpa using hA
    unfold handleEvent
    simp only [dispatch]
    unfold marketAccountDeposit
    simp only [hlen, if_true, hA1, hG]
    split <;> split <;>
      simp [fundMarketCalls, List.filterMap_append, hu, Action.fundMarketArg]
  · intro applied h
    exact updateCalls_of_funded ops _ applied h

/-- Witness of C7: a second deposit to the funded market `exUsdt` makes no `FundMarket`
call and the update function returns the market as it was. -/
theorem updateFn_funded_market_unchanged_witness :
    updateFn Market.ops (fundingTxsOf exDeposit.Utxos) exUsdt = (.ok exUsdt, []) ∧
    fundMarketCalls (handleEvent exCfg Market.ops
      (exWorld oracleConfirmed 150000 closeOk exUsdt) (.MarketAccountDeposit exDeposit)) = [] :=
  ⟨(updateFn_funded_market_unchanged exCfg Market.ops
      (exWorld oracleConfirmed 150000 closeOk exUsdt) exDeposit (by decide)).1 exUsdt rfl,
    by decide⟩

/-- C8, counterexample: a `FeeAccountDeposit` event without utxos is handled without
the liquidity evaluation: the handler only opens and commits the unit of work. -/
theorem empty_fee_deposit_skips_gating :
    handleEvent exCfg Market.ops (exWorld oracleConfirmed 50000 closeOk exUsdt)
        (.FeeAccountDeposit exDepositEmpty) = [.NewTransaction, .Commit none] ∧
    getTradableMarketsCalls (handleEvent exCfg Market.ops
        (exWorld oracleConfirmed 50000 closeOk exUsdt)
        (.FeeAccountDeposit exDepositEmpty)) = [] ∧
    closeMarketCalls (handleEvent exCfg Market.ops
        (exWorld oracleConfirmed 50000 closeOk exUsdt)
        (.FeeAccountDeposit exDepositEmpty)) = [] :=
  ⟨rfl, rfl, by decide⟩

/-- C8 as amended: a `FeeAccountDeposit` event with utxos, when no repository call
fails, is handled with the liquidity evaluation: one `GetTradableMarkets` call, one
lookup of the fee-account addresses, one `GetBalance` call per address in the base
asset, then `OpenMarket` on every candidate market if the sum (accumulated as a
`uint64`) is at least the threshold (converted to `uint64`), `CloseMarket` on every one
otherwise. An event without utxos is handled without any of this: the log is
`NewTransaction`, `Commit`. -/
theorem feeAccountDeposit_gating_iff_utxos (cfg : Config) (ops : MarketOps M) (w : World M)
    (e : AddressEvent) :
    (e.Utxos = [] →
      handleEvent cfg ops w (.FeeAccountDeposit e) = [.NewTransaction, .Commit w.Commit]) ∧
    (e.Utxos ≠ [] →
      (∀ a ∈ handleEvent cfg ops w (.FeeAccountDeposit e), a.isFailedRepoCall = false) →
      ∃ markets addresses,
        w.GetTradableMarkets = .ok markets ∧
        w.GetAllDerivedAddressesAndBlindingKeysForAccount cfg.FeeAccount = .ok addresses ∧
        getTradableMarketsCalls (handleEvent cfg ops w (.FeeAccountDeposit e))
          = [.ok markets] ∧
        getAllDerivedAddressesCalls (handleEvent cfg ops w (.FeeAccountDeposit e))
          = [cfg.FeeAccount] ∧
        getBalanceCalls (handleEvent cfg ops w (.FeeAccountDeposit e))
          = addresses.map (fun a => (a, cfg.BaseAsset)) ∧
        (toUint64 cfg.FeeAccountBalanceThreshold
            ≤ balanceSum w cfg.BaseAsset 0 addresses % 2 ^ 64 →
          openMarketCalls (handleEvent cfg ops w (.FeeAccountDeposit e))
              = markets.map ops.QuoteAssetHash ∧
            closeMarketCalls (handleEvent cfg ops w (.FeeAccountDeposit e)) = []) ∧
        (balanceSum w cfg.BaseAsset 0 addresses % 2 ^ 64
            < toUint64 cfg.FeeAccountBalanceThreshold →
          closeMarketCalls (handleEvent cfg ops w (.FeeAccountDeposit e))
              = markets.map ops.QuoteAssetHash ∧
            openMarketCalls (handleEvent cfg ops w (.FeeAccountDeposit e)) = [])) := by
  constructor
  · intro hnil
    simp [handleEvent, dispatch, feeAccountDeposit, hnil]
  · intro hne hok
    obtain ⟨markets, addresses, hm, ha, heq⟩ := handleEvent_fee_of_ok cfg ops w e hne hok
    refine ⟨markets, addresses, hm, ha, ?_⟩
    have hbal := balanceLoop_calls w cfg.BaseAsset addresses 0 0
    simp only [getBalanceCalls] at hbal
    have h1 := filterMap_utxoLoop (M := M) Action.openMarketArg (fun _ _ => rfl) rfl
    have h2 := filterMap_balanceLoop (M := M) Action.openMarketArg (fun _ _ _ => rfl)
    have h3 := filterMap_utxoLoop (M := M) Action.closeMarketArg (fun _ _ => rfl) rfl
    have h4 := filterMap_balanceLoop (M := M) Action.closeMarketArg (fun _ _ _ => rfl)
    have h5 := filterMap_of_close (M := M) Action.openMarketArg (fun _ _ => rfl) ops
    have h6 := filterMap_of_open (M := M) Action.closeMarketArg (fun _ _ => rfl) ops
    have h7 := filterMap_utxoLoop (M := M) Action.getTradableMarketsReply (fun _ _ => rfl) rfl
    have h8 := filterMap_balanceLoop (M := M) Action.getTradableMarketsReply
      (fun _ _ _ => rfl)
    have h9 := filterMap_of_close (M := M) Action.getTradableMarketsReply (fun _ _ => rfl) ops
    have h10 := filterMap_of_open (M := M) Action.getTradableMarketsReply (fun _ _ => rfl) ops
    have h11 := filterMap_utxoLoop (M := M) Action.getAllDerivedAddressesArg
      (fun _ _ => rfl) rfl
    have h12 := filterMap_balanceLoop (M := M) Action.getAllDerivedAddressesArg
      (fun _ _ _ => rfl)
    have h13 := filterMap_of_close (M := M) Action.getAllDerivedAddressesArg
      (fun _ _ => rfl) ops
    have h14 := filterMap_of_open (M := M) Action.getAllDerivedAddressesArg
      (fun _ _ => rfl) ops
    have h15 := filterMap_utxoLoop (M := M) Action.getBalanceArg (fun _ _ => rfl) rfl
    have h16 := filterMap_of_close (M := M) Action.getBalanceArg (fun _ _ => rfl) ops
    have h17 := filterMap_of_open (M := M) Action.getBalanceArg (fun _ _ => rfl) ops
    by_cases hlt : balanceSum w cfg.BaseAsset 0 addresses % 2 ^ 64
        < toUint64 cfg.FeeAccountBalanceThreshold
    · rw [if_pos hlt] at heq
      rw [heq]
      refine ⟨?_, ?_, ?_, fun hge => absurd hlt (Nat.not_lt.2 hge), fun _ => ?_⟩
      · simp [-List.filterMap_map, getTradableMarketsCalls, List.filterMap_append, h7, h8, h9,
          Action.getTradableMarketsReply]
      · simp [-List.filterMap_map, getAllDerivedAddressesCalls, List.filterMap_append, h11,
          h12, h13, Action.getAllDerivedAddressesArg]
      · simp [-List.filterMap_map, getBalanceCalls, List.filterMap_append, h15, h16, hbal,
          Action.getBalanceArg]
      · simp [-List.filterMap_map, openMarketCalls, closeMarketCalls, List.filterMap_append,
          h1, h2, h3, h4, h5, filterMap_close_of_close, Action.openMarketArg,
          Action.closeMarketArg]
    · rw [if_neg hlt] at heq
      rw [heq]
      refine ⟨?_, ?_, ?_, fun _ => ?_, fun h => absurd h hlt⟩
      · simp [-List.filterMap_map, getTradableMarketsCalls, List.filterMap_append, h7, h8, h10,
          Action.getTradableMarketsReply]
      · simp [-List.filterMap_map, getAllDerivedAddressesCalls, List.filterMap_append, h11,
          h12, h14, Action.getAllDerivedAddressesArg]
      · simp [-List.filterMap_map, getBalanceCalls, List.filterMap_append, h15, h17, hbal,
          Action.getBalanceArg]
      · simp [-List.filterMap_map, openMarketCalls, closeMarketCalls, List.filterMap_append,
          h1, h2, h3, h4, h6, filterMap_open_of_open, Action.openMarketArg,
          Action.closeMarketArg]

/-- Witness of the amended C8: with utxos and a balance of 50000 the markets are looked
up once; without utxos the log is `NewTransaction`, `Commit`. -/
theorem feeAccountDeposit_gating_iff_utxos_witness :
    handleEvent exCfg Market.ops (exWorld oracleConfirmed 50000 closeOk exUsdt)
        (.FeeAccountDeposit exDepositEmpty) = [.NewTransaction, .Commit none] ∧
    ∃ markets addresses,
      (exWorld oracleConfirmed 50000 closeOk exUsdt).GetTradableMarkets = .ok markets ∧
      (exWorld oracleConfirmed 50000 closeOk exUsdt).GetAllDerivedAddressesAndBlindingKeysForAccount
        exCfg.FeeAccount = .ok addresses ∧
      getTradableMarketsCalls (handleEvent exCfg Market.ops
        (exWorld oracleConfirmed 50000 closeOk exUsdt) (.FeeAccountDeposit exDeposit))
        = [.ok markets] :=
  ⟨(feeAccountDeposit_gating_iff_utxos exCfg Market.ops
      (exWorld oracleConfirmed 50000 closeOk exUsdt) exDepositEmpty).1 rfl,
    match (feeAccountDeposit_gating_iff_utxos exCfg Market.ops
      (exWorld oracleConfirmed 50000 closeOk exUsdt) exDeposit).2 (by decide) (by decide) with
    | ⟨markets, addresses, hm, ha, ht, _⟩ => ⟨markets, addresses, hm, ha, ht⟩⟩

end Claims

end Tdex

namespace Unlockerd

/-! ## The claims on the unlocker -/

theorem splitChars_ne_nil (sep : Char) (cs : List Char) : splitChars sep cs ≠ [] := by
  cases cs with
  | nil => simp [splitChars]
  | cons c cs =>
    unfold splitChars
    split
    · simp
    · split <;> simp

theorem splitChars_length (sep : Char) (cs : List Char) :
    (splitChars sep cs).length = cs.count sep + 1 := by
  induction cs with
  | nil => simp [splitChars]
  | cons c cs ih =>
    unfold splitChars
    by_cases h : c = sep
    · subst h
      simp [ih]
    · have hc : (c == sep) = false := by simpa using h
      simp only [h, if_false]
      rw [List.count_cons, hc]
      cases hs : splitChars sep cs with
      | nil => exact absurd hs (splitChars_ne_nil sep cs)
      | cons p ps =>
        rw [hs] at ih
        simpa using ih

theorem Split_length (s : String) (sep : Char) :
    (Split s sep).length = s.data.count sep + 1 := by
  simp [Split, splitChars_length]

/-- What `validate` answers, check by check. -/
theorem validate_checks (ParseIP : String → Bool) (Atoi : String → Option Int)
    (f : Flags) :
    validate ParseIP Atoi f = .ok () ↔
      f.rpcAddress ≠ "" ∧
      (∃ host port, Split f.rpcAddress ':' = [host, port] ∧
        (host = "" ∨ host = "localhost" ∨ ParseIP host = true) ∧
        (∃ p, Atoi port = some p ∧ 1024 < p)) ∧
      f.provider ≠ "" ∧ f.provider ∈ supportedProviders ∧ 0 < f.interval := by
  unfold validate
  by_cases h0 : f.rpcAddress = ""
  · simp [h0]
  · rw [if_neg h0]
    split
    · rename_i host portStr hsplit
      by_cases hhost : host ≠ "" ∧ host ≠ "localhost" ∧ ParseIP host = false
      · rw [if_pos hhost]
        constructor
        · intro h; cases h
        · rintro ⟨_, ⟨host1, port1, hs, hh, _⟩, _⟩
          rw [hsplit] at hs
          simp only [List.cons.injEq, and_true] at hs
          obtain ⟨rfl, rfl⟩ := hs
          rcases hh with hh | hh | hh
          · exact absurd hh hhost.1
          · exact absurd hh hhost.2.1
          · rw [hhost.2.2] at hh; cases hh
      · rw [if_neg hhost]
        have hhost1 : host = "" ∨ host = "localhost" ∨ ParseIP host = true := by
          by_cases h1 : host = ""
          · exact Or.inl h1
          · by_cases h2 : host = "localhost"
            · exact Or.inr (Or.inl h2)
            · right; right
              cases h3 : ParseIP host with
              | true => rfl
              | false => exact absurd ⟨h1, h2, h3⟩ hhost
        cases hport : Atoi portStr with
        | none =>
          simp only
          constructor
          · intro h; cases h
          · rintro ⟨_, ⟨host1, port1, hs, _, p, hp, _⟩, _⟩
            rw [hsplit] at hs
            simp only [List.cons.injEq, and_true] at hs
            obtain ⟨rfl, rfl⟩ := hs
            rw [hport] at hp; cases hp
        | some port =>
          simp only
          by_cases hle : port ≤ 1024
          · rw [if_pos hle]
            constructor
            · intro h; cases h
            · rintro ⟨_, ⟨host1, port1, hs, _, p, hp, hgt⟩, _⟩
              rw [hsplit] at hs
              simp only [List.cons.injEq, and_true] at hs
              obtain ⟨rfl, rfl⟩ := hs
              rw [hport] at hp
              cases hp
              omega
          · rw [if_neg hle]
            have hex : ∃ host1 port1, Split f.rpcAddress ':' = [host1, port1] ∧
                (host1 = "" ∨ host1 = "localhost" ∨ ParseIP host1 = true) ∧
                (∃ p, Atoi port1 = some p ∧ 1024 < p) :=
              ⟨host, portStr, hsplit, hhost1, port, hport, by omega⟩
            by_cases hp0 : f.provider = ""
            · rw [if_pos hp0]
              constructor
              · intro h; cases h
              · rintro ⟨_, _, hne, _⟩
                exact absurd hp0 hne
            · rw [if_neg hp0]
              by_cases hp1 : f.provider ∉ supportedProviders
              · rw [if_pos hp1]
                constructor
                · intro h; cases h
                · rintro ⟨_, _, _, hmem, _⟩
                  exact absurd hmem hp1
              · rw [if_neg hp1]
                by_cases hi : f.interval ≤ 0
                · rw [if_pos hi]
                  constructor
                  · intro h; cases h
                  · rintro ⟨_, _, _, _, hpos⟩
                    omega
                · rw [if_neg hi]
                  constructor
                  · intro _
                    exact ⟨h0, hex, hp0, not_not.1 hp1, by omega⟩
                  · intro _; trivial
    · rename_i hno
      constructor
      · intro h; cases h
      · rintro ⟨_, ⟨host1, port1, hs, _⟩, _⟩
        exact absurd hs (hno host1 port1)

theorem validate_form (ParseIP : String → Bool) (Atoi : String → Option Int) (f : Flags)
    (h : 1 < f.rpcAddress.data.count ':') :
    validate ParseIP Atoi f = .error .rpcAddressForm := by
  have hlen := Split_length f.rpcAddress ':'
  have h0 : f.rpcAddress ≠ "" := by
    intro h0
    rw [h0] at h
    simp at h
  unfold validate
  rw [if_neg h0]
  split
  · rename_i host portStr hsplit
    rw [hsplit] at hlen
    simp only [List.length_cons, List.length_nil] at hlen
    omega
  · rfl

theorem validate_host (ParseIP : String → Bool) (Atoi : String → Option Int) (f : Flags)
    (host port : String) (hs : Split f.rpcAddress ':' = [host, port]) (h1 : host ≠ "")
    (h2 : host ≠ "localhost") (h3 : ParseIP host = false) :
    validate ParseIP Atoi f = .error .rpcAddressHost := by
  have h0 : f.rpcAddress ≠ "" := by
    intro h0
    rw [h0] at hs
    simp [Split, splitChars] at hs
  unfold validate
  rw [if_neg h0, hs]
  simp only
  rw [if_pos ⟨h1, h2, h3⟩]

/-- C10: `validate` returns no error if and only if the rpc-address is non-empty and
splits at `:` into exactly two parts, the host part is empty, `localhost` or accepted
by `net.ParseIP`, the port part is parsed by `strconv.Atoi` into an integer strictly
greater than 1024 (with no upper bound), the provider is non-empty and a key of
`supportedProviders`, and the interval is strictly positive. Hence an address with
more than one `:` is rejected, and so is a host that is neither empty, nor
`localhost`, nor accepted by `net.ParseIP`. -/
theorem validate_ok_iff (ParseIP : String → Bool) (Atoi : String → Option Int) (f : Flags) :
    (validate ParseIP Atoi f = .ok () ↔
      f.rpcAddress ≠ "" ∧
      (∃ host port, Split f.rpcAddress ':' = [host, port] ∧
        (host = "" ∨ host = "localhost" ∨ ParseIP host = true) ∧
        (∃ p, Atoi port = some p ∧ 1024 < p)) ∧
      f.provider ≠ "" ∧ f.provider ∈ supportedProviders ∧ 0 < f.interval) ∧
    (1 < f.rpcAddress.data.count ':' → validate ParseIP Atoi f = .error .rpcAddressForm) ∧
    (∀ host port, Split f.rpcAddress ':' = [host, port] → host ≠ "" →
      host ≠ "localhost" → ParseIP host = false →
      validate ParseIP Atoi f = .error .rpcAddressHost) :=
  ⟨validate_checks ParseIP Atoi f, validate_form ParseIP Atoi f,
    fun host port hs h1 h2 h3 => validate_host ParseIP Atoi f host port hs h1 h2 h3⟩

/-- Witness of C10 with the port 70000, above 65535, and with an IPv6 literal. -/
theorem validate_ok_iff_witness :
    validate (fun _ => false) strconvAtoi
      { rpcAddress := "localhost:70000", provider := "file", interval := 5 } = .ok () ∧
    validate (fun _ => false) strconvAtoi
      { rpcAddress := "::1:9000", provider := "file", interval := 5 }
      = .error .rpcAddressForm ∧
    validate (fun _ => false) strconvAtoi
      { rpcAddress := "example.com:9000", provider := "file", interval := 5 }
      = .error .rpcAddressHost :=
  ⟨(validate_ok_iff (fun _ => false) strconvAtoi
      { rpcAddress := "localhost:70000", provider := "file", interval := 5 }).1.2
      ⟨by decide, ⟨"localhost", "70000", rfl, Or.inr (Or.inl rfl), 70000, rfl, by decide⟩,
        by decide, by decide, by decide⟩,
    (validate_ok_iff (fun _ => false) strconvAtoi
      { rpcAddress := "::1:9000", provider := "file", interval := 5 }).2.1 (by decide),
    (validate_ok_iff (fun _ => false) strconvAtoi
      { rpcAddress := "example.com:9000", provider := "file", interval := 5 }).2.2
      "example.com" "9000" rfl (by decide) (by decide) rfl⟩

theorem pollLoop_until_initialized (status : IsReadyReply) (hs : status.Initialized = false)
    (last : IsReadyReply) (hlast : last.Initialized = true) (mids : List IsReadyReply)
    (hmids : ∀ r ∈ mids, r.Initialized = false) :
    (pollLoop status (mids.map .ok ++ [.ok last])).2 = none ∧
    isReadyCalls (pollLoop status (mids.map .ok ++ [.ok last])).1 = mids.length + 1 ∧
    unlockWalletCalls (pollLoop status (mids.map .ok ++ [.ok last])).1 = 0 := by
  induction mids with
  | nil => simp [pollLoop, hs, hlast, isReadyCalls, unlockWalletCalls]
  | cons r rest ih =>
    have hr := hmids r (List.mem_cons_self _ _)
    have := ih (fun x hx => hmids x (List.mem_cons_of_mem _ hx))
    simp [pollLoop, hs, hr, isReadyCalls, unlockWalletCalls, this]

/-- What `main` does on replies of which only the last one reports `initialized`, the
first one not being the last: it polls `IsReady` once per reply, and whether it calls
`UnlockWallet` follows the `unlocked` field of the first reply, the one line 153 stored. -/
theorem main_unlocks_by_first_reply (password : String) (first last : IsReadyReply)
    (mids : List IsReadyReply) (unlock : Option Tdex.Err)
    (hfirst : first.Initialized = false) (hmids : ∀ r ∈ mids, r.Initialized = false)
    (hlast : last.Initialized = true) :
    isReadyCalls (main password (.ok first :: (mids.map .ok ++ [.ok last])) unlock).1
      = mids.length + 2 ∧
    unlockWalletCalls (main password (.ok first :: (mids.map .ok ++ [.ok last])) unlock).1
      = if first.Unlocked then 0 else 1 := by
  obtain ⟨h1, h2, h3⟩ := pollLoop_until_initialized first hfirst last hlast mids hmids
  have happ : ∀ l : List Call, unlockWalletCalls (l ++ [Call.UnlockWallet password])
      = unlockWalletCalls l + 1 := by
    intro l
    induction l with
    | nil => rfl
    | cons c l ih => cases c <;> simp [unlockWalletCalls, ih]
  have happ2 : ∀ l : List Call, isReadyCalls (l ++ [Call.UnlockWallet password])
      = isReadyCalls l := by
    intro l
    induction l with
    | nil => rfl
    | cons c l ih => cases c <;> simp [isReadyCalls, ih]
  unfold main
  simp only [h1]
  cases hu : first.Unlocked with
  | true => simp [isReadyCalls, unlockWalletCalls, h2, h3]
  | false =>
    cases unlock with
    | none => simp [isReadyCalls, unlockWalletCalls, h2, h3, happ, happ2]
    | some err => simp [isReadyCalls, unlockWalletCalls, h2, h3, happ, happ2]

/-- C9 at the failing input: the first `IsReady` reply reports a wallet that is not
initialized and not unlocked, the second and last one a wallet that is initialized and
unlocked. `main` polls twice and then calls `UnlockWallet`, although the last reply
reports `unlocked = true`. With the two `unlocked` fields swapped it returns without
calling `UnlockWallet`, although the last reply reports `unlocked = false`. -/
theorem main_unlocks_an_unlocked_wallet :
    main "pw" [.ok { Initialized := false, Unlocked := false },
               .ok { Initialized := true, Unlocked := true }] none
      = ([.IsReady, .Sleep, .IsReady, .UnlockWallet "pw"], .returned) ∧
    main "pw" [.ok { Initialized := false, Unlocked := true },
               .ok { Initialized := true, Unlocked := false }] none
      = ([.IsReady, .Sleep, .IsReady], .returned) :=
  ⟨rfl, rfl⟩

end Unlockerd
